import Mathlib

/-!
# Verification of the humanize `_fast` formatting engine

Shallow embedding of the Rust sources `format_utils.rs`, `number.rs`,
`filesize.rs` and `lib.rs`.  Strings are modelled as `List Char`
(the Rust code works on UTF-8 strings whose relevant content is ASCII).
`f64` values are modelled exactly: a parsed value is either a rational
number, a signed infinity or NaN (`Fp` below).  Real-number operations of
the source (division, `ln`-based logarithms, decimal rendering and
rounding) are modelled by exact rational arithmetic; this is the standard
exact-value reading of the floating-point code, and every modelling choice
of that kind is noted at the definition it concerns.

All definitions are structurally recursive, and rational arithmetic goes
through the kernel-computable wrappers `qadd`/`qsub`/`qmul`/`qdiv`/… below
(proved equal to the field operations of `ℚ`), so that concrete runs of
the embedded program evaluate inside the kernel.
-/

/-! ## Kernel-computable rational arithmetic -/

/-- A natural number as a rational (kernel-computable form of `Nat.cast`). -/
def qnat (n : ℕ) : ℚ := Rat.ofInt (Int.ofNat n)

/-- An integer as a rational (kernel-computable form of `Int.cast`). -/
def qint (z : ℤ) : ℚ := Rat.ofInt z

/-- Rational multiplication (kernel-computable form of `*`). -/
def qmul (a b : ℚ) : ℚ := mkRat (a.num * b.num) (a.den * b.den)

/-- Rational inverse (kernel-computable form of `⁻¹`). -/
def qinv (q : ℚ) : ℚ :=
  if q.num < 0 then mkRat (-(q.den : ℤ)) q.num.natAbs else mkRat (q.den : ℤ) q.num.natAbs

/-- Rational division (kernel-computable form of `/`). -/
def qdiv (a b : ℚ) : ℚ := qmul a (qinv b)

/-- Rational addition (kernel-computable form of `+`). -/
def qadd (a b : ℚ) : ℚ := mkRat (a.num * b.den + b.num * a.den) (a.den * b.den)

/-- Rational subtraction (kernel-computable form of `-`). -/
def qsub (a b : ℚ) : ℚ := qadd a (-b)

/-- Rational floor (kernel-computable form of `⌊·⌋`). -/
def qfloor (q : ℚ) : ℤ := Rat.floor q

/-- `f64::abs`. -/
def qabs (q : ℚ) : ℚ := if q < 0 then -q else q

/-- `10^p` as a rational. -/
def qpow10 (p : ℕ) : ℚ := qnat (10 ^ p)

/-- `10^e` for a signed exponent (the scale factor applied by the float
parser for `e`-notation). -/
def zpow10 (e : ℤ) : ℚ := if 0 ≤ e then qpow10 e.toNat else qinv (qpow10 (-e).toNat)

theorem qnat_eq (n : ℕ) : qnat n = (n : ℚ) := by simp [qnat, Rat.ofInt_eq_cast]

theorem qint_eq (z : ℤ) : qint z = (z : ℚ) := by simp [qint, Rat.ofInt_eq_cast]

theorem den_cast_ne_zero (a : ℚ) : ((a.den : ℚ)) ≠ 0 := by
  exact_mod_cast a.den_nz

theorem num_cast_eq (a : ℚ) : (a.num : ℚ) = a * a.den := by
  have h := Rat.num_div_den a
  rw [div_eq_iff (den_cast_ne_zero a)] at h
  exact h

theorem natAbs_cast_q (z : ℤ) : ((z.natAbs : ℕ) : ℚ) = ((z.natAbs : ℤ) : ℚ) :=
  (Int.cast_natCast z.natAbs).symm

theorem qmul_eq (a b : ℚ) : qmul a b = a * b := by
  rw [qmul, Rat.mkRat_eq_div]
  push_cast
  rw [div_eq_iff (by positivity)]
  rw [num_cast_eq a, num_cast_eq b]
  ring

theorem qinv_eq (q : ℚ) : qinv q = q⁻¹ := by
  have hinv : q⁻¹ = (q.den : ℚ) / (q.num : ℚ) := by
    conv_lhs => rw [← Rat.num_div_den q]
    rw [inv_div]
  rw [qinv]
  by_cases h : q.num < 0
  · rw [if_pos h, Rat.mkRat_eq_div, hinv]
    have h2 : (q.num.natAbs : ℤ) = -q.num := by omega
    have habs : ((q.num.natAbs : ℕ) : ℚ) = -(q.num : ℚ) := by
      rw [natAbs_cast_q, h2]
      push_cast
      ring
    rw [habs]
    push_cast
    rw [div_neg, neg_div, neg_neg]
  · rw [if_neg h, Rat.mkRat_eq_div, hinv]
    have h2 : (q.num.natAbs : ℤ) = q.num := by omega
    have habs : ((q.num.natAbs : ℕ) : ℚ) = (q.num : ℚ) := by
      rw [natAbs_cast_q, h2]
    rw [habs]
    push_cast
    ring_nf

theorem qdiv_eq (a b : ℚ) : qdiv a b = a / b := by
  rw [qdiv, qmul_eq, qinv_eq, div_eq_mul_inv]

theorem qadd_eq (a b : ℚ) : qadd a b = a + b := by
  rw [qadd, Rat.mkRat_eq_div]
  push_cast
  rw [div_eq_iff (by positivity)]
  rw [num_cast_eq a, num_cast_eq b]
  ring

theorem qsub_eq (a b : ℚ) : qsub a b = a - b := by
  rw [qsub, qadd_eq, sub_eq_add_neg]

theorem qfloor_eq (q : ℚ) : qfloor q = ⌊q⌋ := by
  rw [qfloor, Rat.floor_def' q, Rat.floor_def]

theorem qabs_eq (q : ℚ) : qabs q = |q| := by
  rw [qabs]
  by_cases h : q < 0
  · rw [if_pos h, abs_of_neg h]
  · rw [if_neg h, abs_of_nonneg (not_lt.mp h)]

theorem qpow10_eq (p : ℕ) : qpow10 p = (10 : ℚ) ^ p := by
  rw [qpow10, qnat_eq]
  push_cast
  ring

theorem zpow10_eq (e : ℤ) : zpow10 e = (10 : ℚ) ^ e := by
  rw [zpow10]
  by_cases h : 0 ≤ e
  · rw [if_pos h, qpow10_eq, ← zpow_natCast, Int.toNat_of_nonneg h]
  · rw [if_neg h, qinv_eq, qpow10_eq, ← zpow_natCast,
      Int.toNat_of_nonneg (by omega : (0 : ℤ) ≤ -e), ← zpow_neg, neg_neg]

/-! ## Characters, digit strings and digit values -/

/-- Coerce a string literal to the `List Char` representation used
throughout this development. -/
def str (s : String) : List Char := s.data

/-- ASCII digit test (`c.is_ascii_digit()` / the regex class `\d`). -/
def isDigit (c : Char) : Bool := 48 ≤ c.toNat && c.toNat ≤ 57

/-- ASCII whitespace, modelling the characters `str::trim` removes that
are relevant to this code base. -/
def isWs (c : Char) : Bool := c = ' ' || c = '\t' || c = '\n' || c = '\r'

/-- ASCII lower-casing of one character (`char::to_ascii_lowercase`). -/
def lowerChar (c : Char) : Char :=
  if 65 ≤ c.toNat ∧ c.toNat ≤ 90 then Char.ofNat (c.toNat + 32) else c

/-- The decimal digit characters. -/
def digitChar (d : ℕ) : Char :=
  (['0', '1', '2', '3', '4', '5', '6', '7', '8', '9']).getD d '0'

/-- Fuel-driven digit expansion (structural recursion so the kernel can
evaluate it). -/
def natDigitsF : ℕ → ℕ → List Char
  | 0, _ => []
  | f + 1, n =>
    if n < 10 then [digitChar n] else natDigitsF f (n / 10) ++ [digitChar (n % 10)]

/-- Decimal digits of a natural number, most significant first
(the digit sequence `u64`/`usize` display produces). -/
def natDigits (n : ℕ) : List Char := natDigitsF (n + 1) n

/-- Decimal rendering of an `i64` (Rust `{}` on a signed integer). -/
def intRender (z : ℤ) : List Char :=
  if z < 0 then '-' :: natDigits z.natAbs else natDigits z.natAbs

/-- Numeric value of one ASCII digit character. -/
def dval (c : Char) : ℕ := c.toNat - 48

/-- Numeric value of a digit string (how the parser accumulates digits). -/
def digitsVal (ds : List Char) : ℕ := ds.foldl (fun a c => 10 * a + dval c) 0

/-- Left-pad a digit string with zeros to width `p` (fixed-precision
fractional parts are always printed with exactly `p` digits). -/
def padZeros (p : ℕ) (ds : List Char) : List Char :=
  List.replicate (p - ds.length) '0' ++ ds

/-! ## The float model and Rust's float parser -/

/-- Model of an `f64` value: a finite value carried exactly as a rational,
a signed infinity, or NaN. -/
inductive Fp where
  | finite (q : ℚ)
  | inf (pos : Bool)
  | nan
  deriving DecidableEq

/-- `f64::is_finite`. -/
def Fp.isFinite : Fp → Bool
  | .finite _ => true
  | _ => false

/-- The rational carried by a finite value (only used under an
`isFinite` guard, matching the source's control flow). -/
def Fp.qval : Fp → ℚ
  | .finite q => q
  | _ => 0

/-- Strip a single leading sign, returning whether it was `-`
(the sign handling of Rust's `f64::from_str`). -/
def splitSign (cs : List Char) : Bool × List Char :=
  match cs with
  | c :: t => if c = '-' then (true, t) else if c = '+' then (false, t) else (false, cs)
  | [] => (false, cs)

/-- Mantissa of Rust's float grammar: `Digit+ ('.' Digit*)?` or
`Digit* '.' Digit+`, evaluated exactly. -/
def parseMantissa (cs : List Char) : Option ℚ :=
  let ip := cs.takeWhile (· ≠ '.')
  match cs.dropWhile (· ≠ '.') with
  | [] =>
    if cs ≠ [] ∧ cs.all isDigit then some (qnat (digitsVal cs)) else none
  | _ :: fp =>
    if (ip ++ fp) ≠ [] ∧ ip.all isDigit ∧ fp.all isDigit then
      some (qadd (qnat (digitsVal ip)) (qdiv (qnat (digitsVal fp)) (qpow10 fp.length)))
    else none

/-- Exponent part of Rust's float grammar: `Sign? Digit+`. -/
def parseExpPart (cs : List Char) : Option ℤ :=
  let p := splitSign cs
  if p.2 ≠ [] ∧ p.2.all isDigit then
    some (if p.1 then -(digitsVal p.2 : ℤ) else (digitsVal p.2 : ℤ))
  else none

/-- Number production of Rust's float grammar: mantissa with an optional
`e`/`E` exponent, evaluated exactly (overflow saturation of `f64` is not
modelled; magnitudes stay exact rationals). -/
def parseNumber (cs : List Char) : Option ℚ :=
  let m := cs.takeWhile (fun c => c ≠ 'e' ∧ c ≠ 'E')
  match cs.dropWhile (fun c => c ≠ 'e' ∧ c ≠ 'E') with
  | [] => parseMantissa m
  | _ :: ex => do
    let mv ← parseMantissa m
    let e ← parseExpPart ex
    pure (qmul mv (zpow10 e))

/-- Rust's `f64::from_str`: optional sign, then the case-insensitive
spellings `inf`/`infinity`/`nan` or a decimal number. -/
def rustParse (cs : List Char) : Option Fp :=
  let p := splitSign cs
  let low := p.2.map lowerChar
  if low = str "inf" ∨ low = str "infinity" then some (.inf (!p.1))
  else if low = str "nan" then some .nan
  else (parseNumber p.2).map fun q => .finite (if p.1 then -q else q)

/-- `value.replace(',', "")` of `parse_value`. -/
def stripCommas (cs : List Char) : List Char := cs.filter (· ≠ ',')

/-- `format_utils.rs` / `lib.rs` `parse_value`: strip grouping commas,
then parse as `f64`. -/
def parse_value (cs : List Char) : Option Fp := rustParse (stripCommas cs)

/-! ## Special-value normalization and non-finite rendering -/

/-- Strip leading and trailing whitespace (`str::trim`, restricted to the
ASCII whitespace relevant here). -/
def trimWs (cs : List Char) : List Char :=
  ((cs.dropWhile isWs).reverse.dropWhile isWs).reverse

/-- `format_utils.rs` / `lib.rs` `normalize_special_values`: trim,
ASCII-lowercase, and map the three special spellings to the normalized
tokens. -/
def normalize_special_values (cs : List Char) : Option (List Char) :=
  let t := (trimWs cs).map lowerChar
  if t = str "inf" ∨ t = str "+inf" then some (str "+Inf")
  else if t = str "-inf" then some (str "-Inf")
  else if t = str "nan" then some (str "NaN")
  else none

/-! ## Decimal rendering (`{:.N}` and `Display` of `f64`) -/

/-- Round a rational to the nearest integer, ties to even — the rounding
Rust's fixed-precision formatting applies at the last kept digit
(modelled on the exact value; the double's binary rounding is treated as
exact). -/
def rhe (x : ℚ) : ℤ :=
  let f := qfloor x
  let r := qsub x (qint f)
  if r < qdiv (qnat 1) (qnat 2) then f
  else if qdiv (qnat 1) (qnat 2) < r then f + 1
  else if f % 2 = 0 then f else f + 1

/-- Rust `format!("{:.p$}", x)`: round the magnitude at `p` fractional
digits, print sign, integer digits, and exactly `p` fractional digits
(no decimal point when `p = 0`). -/
def fixedRender (p : ℕ) (x : ℚ) : List Char :=
  let n := (rhe (qmul (qabs x) (qpow10 p))).toNat
  let s := natDigits (n / 10 ^ p) ++
    (if p = 0 then [] else '.' :: padZeros p (natDigits (n % 10 ^ p)))
  if x < 0 then '-' :: s else s

/-- Find the least `k` with `den ∣ 10^k`, carrying `r = 10^k % den`
(fuel-driven so the kernel can evaluate it). -/
def fdeAux (den : ℕ) : ℕ → ℕ → ℕ → Option ℕ
  | 0, _, _ => none
  | f + 1, k, r => if r = 0 then some k else fdeAux den f (k + 1) (10 * r % den)

/-- Rust `Display` for `f64` (`v.to_string()`): the shortest plain decimal
expansion, no exponent notation, integral values without a decimal point.
Modelled for values with a terminating decimal expansion — every value the
embedded pipeline renders has one; other rationals take an arbitrary
fallback branch that the pipeline never reaches. -/
def natRender (q : ℚ) : List Char :=
  let body :=
    match fdeAux q.den 1200 0 (1 % q.den) with
    | some k =>
      let n := (qmul (qabs q) (qpow10 k)).num.toNat
      if k = 0 then natDigits n
      else natDigits (n / 10 ^ k) ++ '.' :: padZeros k (natDigits (n % 10 ^ k))
    | none => natDigits (qabs q).num.toNat
  if q < 0 then '-' :: body else body

/-! ## `format_utils.rs`: non-finite rendering, commas, printf specs -/

/-- `format_utils.rs` `format_not_finite`: `NaN`, then signed infinity
with an explicit `+`, otherwise `Display` of the (finite) value. -/
def format_not_finite (v : Fp) : List Char :=
  match v with
  | .nan => str "NaN"
  | .inf pos => if pos then str "+Inf" else str "-Inf"
  | .finite q => natRender q

/-- `lib.rs` `format_not_finite`: identical to the `format_utils.rs`
version except that positive infinity is rendered `"Inf"` without the
sign. -/
def lib_format_not_finite (v : Fp) : List Char :=
  match v with
  | .nan => str "NaN"
  | .inf pos => if pos then str "Inf" else str "-Inf"
  | .finite q => natRender q

/-- The reversed-order worker of `add_commas`: walk the digits from least
significant, emitting a comma after every third character. -/
def goAC : List Char → ℕ → List Char
  | [], _ => []
  | c :: cs, cnt => if cnt = 3 then ',' :: c :: goAC cs 1 else c :: goAC cs (cnt + 1)

/-- `format_utils.rs` / `lib.rs` `add_commas`: iterate the reversed
characters pushing `,` whenever three have accumulated, then reverse. -/
def add_commas (whole : List Char) : List Char := (goAC whole.reverse 0).reverse

/-- The regex search `%\.(\d+)f` of `RE_FLOAT_FORMAT`: scan left to right
for `%.` followed by a maximal nonempty digit run and `f`, returning the
digit run of the first match. -/
def findFloatFormat : List Char → Option (List Char)
  | [] => none
  | c :: rest =>
    if c = '%' then
      match rest with
      | c2 :: r2 =>
        if c2 = '.' then
          let ds := r2.takeWhile isDigit
          if ds.isEmpty then findFloatFormat rest
          else
            match r2.drop ds.length with
            | c3 :: _ => if c3 = 'f' then some ds else findFloatFormat rest
            | [] => findFloatFormat rest
        else findFloatFormat rest
      | [] => findFloatFormat rest
    else findFloatFormat rest

/-- `format_utils.rs` `apply_printf_style`: if the spec contains a
`%.<N>f` match and `<N>` fits in a `usize` (64-bit), render at `N`
fractional digits; otherwise fall through to `Display`. -/
def apply_printf_style (format_spec : List Char) (value : ℚ) : List Char :=
  match findFloatFormat format_spec with
  | some ds => if digitsVal ds < 2 ^ 64 then fixedRender (digitsVal ds) value else natRender value
  | none => natRender value

/-! ## `number.rs` / `lib.rs`: intcomma and intword -/

/-- Rust `f64::trunc`: truncation toward zero. -/
def qtrunc (q : ℚ) : ℤ := if q < 0 then -(qfloor (-q)) else qfloor q

/-- Rust `bytes as i64`: truncation toward zero, saturating at the `i64`
range. -/
def truncI (q : ℚ) : ℤ :=
  let t := qtrunc q
  if t > 2 ^ 63 - 1 then 2 ^ 63 - 1 else if t < -(2 ^ 63) then -(2 ^ 63) else t

/-- Steps 4–6 of `format_single_value` (shared verbatim by `number.rs`
and `lib.rs`): render the finite value at the requested precision, split
at the decimal point, group the whole part with commas re-attaching the
sign, and re-attach the fraction. -/
def formatFiniteComma (q : ℚ) (nd : Option ℕ) : List Char :=
  let orig := match nd with
    | some d => fixedRender d q
    | none => natRender q
  let parts := orig.splitOn '.'
  let p0 := parts.headD []
  let sp := match p0 with
    | '-' :: t => (t, true)
    | p => (p, false)
  let whole := add_commas sp.1
  let whole := if sp.2 then '-' :: whole else whole
  match parts[1]? with
  | some f => whole ++ '.' :: f
  | none => whole

/-- `number.rs` `format_single_value`: normalize special spellings, parse,
route non-finite values to `format_not_finite`, then comma-format. -/
def format_single_value (val_str : List Char) (ndigits : Option ℕ) : List Char :=
  match normalize_special_values val_str with
  | some normalized => normalized
  | none =>
    match parse_value val_str with
    | none => val_str
    | some v =>
      if v.isFinite then formatFiniteComma v.qval ndigits
      else format_not_finite v

/-- `lib.rs` `format_single_value`: textually identical to the `number.rs`
version, but it calls the `lib.rs` `format_not_finite` (which renders
positive infinity without the `+`). -/
def lib_format_single_value (val_str : List Char) (ndigits : Option ℕ) : List Char :=
  match normalize_special_values val_str with
  | some normalized => normalized
  | none =>
    match parse_value val_str with
    | none => val_str
    | some v =>
      if v.isFinite then formatFiniteComma v.qval ndigits
      else lib_format_not_finite v

/-- `number.rs` `POWERS`: `1e3 … 1e33, 1e100`, modelled at their exact
decimal values. -/
def POWERS : List ℚ :=
  [qnat 1000, qnat 1000000, qnat 1000000000, qnat 1000000000000,
   qnat 1000000000000000, qnat 1000000000000000000,
   qnat 1000000000000000000000, qnat 1000000000000000000000000,
   qnat 1000000000000000000000000000, qnat 1000000000000000000000000000000,
   qnat 1000000000000000000000000000000000,
   qnat 10000000000000000000000000000000000000000000000000000000000000000000000000000000000000000000000000000]

/-- `number.rs` `HUMAN_POWERS`. -/
def HUMAN_POWERS : List (List Char) :=
  [str "thousand", str "million", str "billion", str "trillion",
   str "quadrillion", str "quintillion", str "sextillion", str "septillion",
   str "octillion", str "nonillion", str "decillion", str "googol"]

/-- `f64::EPSILON` = 2⁻⁵². -/
def feps : ℚ := qdiv (qnat 1) (qnat 4503599627370496)

/-- The rounding-overflow test of `intword_single` lines 204–207:
re-parse the rendered string (falling back to the chopped value when the
parse fails) and compare with the bucket ratio within `f64::EPSILON`.
A non-finite re-parse compares false, as the `f64` comparison would. -/
def parseCond (formatted : List Char) (chopped powers_diff : ℚ) : Bool :=
  match parse_value formatted with
  | some (.finite q) => qabs (qsub q powers_diff) < feps
  | some _ => false
  | none => qabs (qsub chopped powers_diff) < feps

/-- The bucket scan of `intword_single` (`for (i, power) in
POWERS.iter().enumerate().skip(1)`), fuel-driven: at index `i`, if
`value < POWERS[i]` format in bucket `i-1`, promoting to bucket `i` when
the rendered value re-parses to the bucket ratio; otherwise advance.
Fuel exhaustion is the loop running off the table (`value ≥ 1e100`),
where the raw value is displayed. -/
def intwordLoopF (value : ℚ) (fmt : List Char) : ℕ → ℕ → List Char
  | 0, _ => natRender value
  | f + 1, i =>
    if value < POWERS.getD i 0 then
      let chopped := qdiv value (POWERS.getD (i - 1) 0)
      let powers_diff := qdiv (POWERS.getD i 0) (POWERS.getD (i - 1) 0)
      let formatted := apply_printf_style fmt chopped
      if parseCond formatted chopped powers_diff then
        let chopped2 := qdiv value (POWERS.getD i 0)
        apply_printf_style fmt chopped2 ++ ' ' :: HUMAN_POWERS.getD i []
      else formatted ++ ' ' :: HUMAN_POWERS.getD (i - 1) []
    else intwordLoopF value fmt f (i + 1)

/-- The same scan, returning the numeric part and the bucket index it is
labelled with (`none` when the loop runs off the table). -/
def intwordPartsF (value : ℚ) (fmt : List Char) : ℕ → ℕ → Option (List Char × ℕ)
  | 0, _ => none
  | f + 1, i =>
    if value < POWERS.getD i 0 then
      let chopped := qdiv value (POWERS.getD (i - 1) 0)
      let powers_diff := qdiv (POWERS.getD i 0) (POWERS.getD (i - 1) 0)
      let formatted := apply_printf_style fmt chopped
      if parseCond formatted chopped powers_diff then
        some (apply_printf_style fmt (qdiv value (POWERS.getD i 0)), i)
      else some (formatted, i - 1)
    else intwordPartsF value fmt f (i + 1)

/-- The numeric tail of `intword_single` (everything after the parse):
extract the sign, return a grouped truncated integer below 1000, and
otherwise run the bucket scan from index 1. -/
def intword_num (x : ℚ) (fmt : List Char) : List Char :=
  let neg := if x < 0 then ['-'] else []
  let value := qabs x
  if value < POWERS.getD 0 0 then neg ++ add_commas (natRender (qint (qtrunc value)))
  else neg ++ intwordLoopF value fmt 11 1

/-- `number.rs` `intword_single`. -/
def intword_single (val_str : List Char) (format_spec : List Char) : List Char :=
  match normalize_special_values val_str with
  | some normalized => normalized
  | none =>
    match parse_value val_str with
    | none => val_str
    | some v =>
      if v.isFinite then intword_num v.qval format_spec
      else format_not_finite v

/-! ## `filesize.rs`: naturalsize -/

/-- `format_utils.rs` suffix table `SUFFIXES_DECIMAL`. -/
def SUFFIXES_DECIMAL : List (List Char) :=
  [str " kB", str " MB", str " GB", str " TB", str " PB",
   str " EB", str " ZB", str " YB", str " RB", str " QB"]

/-- `format_utils.rs` suffix table `SUFFIXES_BINARY`. -/
def SUFFIXES_BINARY : List (List Char) :=
  [str " KiB", str " MiB", str " GiB", str " TiB", str " PiB",
   str " EiB", str " ZiB", str " YiB", str " RiB", str " QiB"]

/-- `format_utils.rs` `SUFFIXES_GNU`. -/
def SUFFIXES_GNU : List Char := str "KMGTPEZYRQ"

/-- Fuel-driven base-`b` logarithm (structural recursion so the kernel
can evaluate it). -/
def logFuel (b : ℕ) : ℕ → ℕ → ℕ
  | 0, _ => 0
  | f + 1, m => if b ≤ m ∧ 1 < b then logFuel b f (m / b) + 1 else 0

/-- `⌊log_b n⌋` for naturals; models `(x.ln() / base.ln()).floor()` of
`filesize.rs`, reading the floating-point logarithms at their exact real
values. -/
def floorLog (b n : ℕ) : ℕ := logFuel b n n

/-- `filesize.rs` `format_numeric_value`: singular byte, sub-base
plural/GNU bytes, then the logarithmic bucket with its clamp to
`[1, table length]`, division by `base^exp`, precision rendering and
suffix lookup at `exp - 1`. -/
def format_numeric_value (bytes : ℚ) (binary gnu : Bool) (format_spec : List Char) : List Char :=
  let base : ℚ := if gnu || binary then qnat 1024 else qnat 1000
  let abs_bytes := qabs bytes
  if abs_bytes = qnat 1 ∧ gnu = false then intRender (truncI bytes) ++ str " Byte"
  else if abs_bytes < base then
    if gnu then intRender (truncI bytes) ++ str "B"
    else intRender (truncI bytes) ++ str " Bytes"
  else
    let baseN : ℕ := if gnu || binary then 1024 else 1000
    let exp0 := floorLog baseN (qfloor abs_bytes).toNat
    let exp1 := if 10 < exp0 then 10 else exp0
    let exp := if exp1 < 1 then 1 else exp1
    let value := qdiv bytes (qnat (baseN ^ exp))
    let formatted := apply_printf_style format_spec value
    if gnu then formatted ++ [SUFFIXES_GNU.getD (exp - 1) '?']
    else formatted ++ (if binary then SUFFIXES_BINARY else SUFFIXES_DECIMAL).getD (exp - 1) []

/-- `filesize.rs` `Extracted` (string inputs only: numeric and `None`
inputs arrive already stringified in this model). -/
inductive Extracted where
  | numeric (v : Fp)
  | raw (s : List Char)
  deriving DecidableEq

/-- The string branch of `extract_to_extracted`: parse first, keep the
original text when the parse fails. -/
def extract_to_extracted (s : List Char) : Extracted :=
  match parse_value s with
  | some v => .numeric v
  | none => .raw s

/-- The per-element closure of `naturalsize`'s batch path: non-finite
numerics through `format_not_finite`, finite ones through
`format_numeric_value`, and raw strings through special-token
normalization with pass-through. -/
def naturalsizeElem (e : Extracted) (binary gnu : Bool) (format_spec : List Char) : List Char :=
  match e with
  | .numeric n =>
    if n.isFinite = false then format_not_finite n
    else format_numeric_value n.qval binary gnu format_spec
  | .raw s => (normalize_special_values s).getD s

/-- The scalar string path of `naturalsize` (lines 152–163): normalize
special spellings, then parse, then format. -/
def naturalsizeStr (s : List Char) (binary gnu : Bool) (format_spec : List Char) : List Char :=
  match normalize_special_values s with
  | some norm => norm
  | none =>
    match parse_value s with
    | some parsed =>
      if parsed.isFinite = false then format_not_finite parsed
      else format_numeric_value parsed.qval binary gnu format_spec
    | none => s

/-! ## Batch fan-out

The three entry points accept a scalar, a `PyList` or a `PyTuple`; the
model carries elements as the strings the host-boundary conversion
produces.  The rayon `into_par_iter().map(...).collect()` of the source
keeps every element at its input position — that library guarantee is
what `List.map` models. -/

/-- A scalar, list or tuple argument (elements already stringified by the
host boundary). -/
inductive PyColl where
  | scalar (s : List Char)
  | list (xs : List (List Char))
  | tuple (xs : List (List Char))
  deriving DecidableEq

/-- `number.rs` / `lib.rs` `intcomma`: map `format_single_value` over a
list or tuple rebuilding the same container kind, or apply it to the
scalar. -/
def intcomma (value : PyColl) (ndigits : Option ℕ) : PyColl :=
  match value with
  | .list xs => .list (xs.map (fun s => format_single_value s ndigits))
  | .tuple xs => .tuple (xs.map (fun s => format_single_value s ndigits))
  | .scalar s => .scalar (format_single_value s ndigits)

/-- `number.rs` `intword`: same fan-out over `intword_single`. -/
def intword (value : PyColl) (format_spec : List Char) : PyColl :=
  match value with
  | .list xs => .list (xs.map (fun s => intword_single s format_spec))
  | .tuple xs => .tuple (xs.map (fun s => intword_single s format_spec))
  | .scalar s => .scalar (intword_single s format_spec)

/-- `filesize.rs` `naturalsize`: lists and tuples are eagerly extracted
and then formatted element-wise, rebuilding the same container kind;
scalars take the string path. -/
def naturalsize (value : PyColl) (binary gnu : Bool) (format_spec : List Char) : PyColl :=
  match value with
  | .list xs => .list (xs.map (fun s => naturalsizeElem (extract_to_extracted s) binary gnu format_spec))
  | .tuple xs => .tuple (xs.map (fun s => naturalsizeElem (extract_to_extracted s) binary gnu format_spec))
  | .scalar s => .scalar (naturalsizeStr s binary gnu format_spec)

/-! ## Helper lemmas: digits and characters -/

theorem isDigit_iff {c : Char} : isDigit c = true ↔ 48 ≤ c.toNat ∧ c.toNat ≤ 57 := by
  simp [isDigit]

theorem isDigit_digitChar {d : ℕ} (h : d < 10) : isDigit (digitChar d) = true := by
  interval_cases d <;> decide

theorem dval_digitChar {d : ℕ} (h : d < 10) : dval (digitChar d) = d := by
  interval_cases d <;> decide

theorem digit_ne_special {c : Char} (h : isDigit c = true) :
    c ≠ ',' ∧ c ≠ '+' ∧ c ≠ '-' ∧ c ≠ '.' ∧ c ≠ 'e' ∧ c ≠ 'E' ∧ c ≠ 'i' ∧ c ≠ 'n' := by
  refine ⟨?_, ?_, ?_, ?_, ?_, ?_, ?_, ?_⟩ <;>
    (intro heq; rw [heq] at h; exact absurd h (by decide))

theorem lowerChar_of_digit {c : Char} (h : isDigit c = true) : lowerChar c = c := by
  rw [lowerChar, if_neg]
  rw [isDigit_iff] at h
  omega

theorem natDigitsF_fuel : ∀ f g n, n < f → n < g → natDigitsF f n = natDigitsF g n := by
  intro f
  induction f with
  | zero => intro g n h; omega
  | succ f ih =>
    intro g n hf hg
    obtain ⟨g, rfl⟩ : ∃ g₀, g = g₀ + 1 := ⟨g - 1, by omega⟩
    rw [natDigitsF, natDigitsF]
    by_cases h10 : n < 10
    · rw [if_pos h10, if_pos h10]
    · rw [if_neg h10, if_neg h10]
      have hdiv : n / 10 < n := Nat.div_lt_self (by omega) (by omega)
      rw [ih g (n / 10) (by omega) (by omega)]

theorem natDigits_eq (n : ℕ) :
    natDigits n = if n < 10 then [digitChar n] else natDigits (n / 10) ++ [digitChar (n % 10)] := by
  rw [natDigits, natDigitsF]
  by_cases h10 : n < 10
  · rw [if_pos h10, if_pos h10]
  · rw [if_neg h10, if_neg h10, natDigits]
    have hdiv : n / 10 < n := Nat.div_lt_self (by omega) (by omega)
    rw [natDigitsF_fuel n (n / 10 + 1) (n / 10) (by omega) (by omega)]

theorem natDigits_ne_nil (n : ℕ) : natDigits n ≠ [] := by
  rw [natDigits_eq]
  by_cases h : n < 10
  · rw [if_pos h]; simp
  · rw [if_neg h]; simp

theorem natDigits_all_digit (n : ℕ) : ∀ c ∈ natDigits n, isDigit c = true := by
  induction n using Nat.strong_induction_on with
  | _ n ih =>
    rw [natDigits_eq]
    by_cases h : n < 10
    · rw [if_pos h]
      intro c hc
      rw [List.mem_singleton] at hc
      rw [hc]
      exact isDigit_digitChar h
    · rw [if_neg h]
      intro c hc
      rw [List.mem_append] at hc
      rcases hc with hc | hc
      · exact ih (n / 10) (Nat.div_lt_self (by omega) (by omega)) c hc
      · rw [List.mem_singleton] at hc
        rw [hc]
        exact isDigit_digitChar (Nat.mod_lt n (by omega))

theorem digitsVal_append_single (l : List Char) (c : Char) :
    digitsVal (l ++ [c]) = 10 * digitsVal l + dval c := by
  rw [digitsVal, digitsVal, List.foldl_append]
  rfl

theorem digitsVal_natDigits (n : ℕ) : digitsVal (natDigits n) = n := by
  induction n using Nat.strong_induction_on with
  | _ n ih =>
    rw [natDigits_eq]
    by_cases h : n < 10
    · rw [if_pos h]
      show digitsVal [digitChar n] = n
      rw [digitsVal]
      simp [dval_digitChar h]
    · rw [if_neg h]
      rw [digitsVal_append_single, ih (n / 10) (Nat.div_lt_self (by omega) (by omega)),
        dval_digitChar (Nat.mod_lt n (by omega))]
      omega

theorem natDigits_length_le {n k : ℕ} (h : n < 10 ^ k) (hk : 1 ≤ k) :
    (natDigits n).length ≤ k := by
  induction k generalizing n with
  | zero => omega
  | succ k ih =>
    rw [natDigits_eq]
    by_cases h10 : n < 10
    · rw [if_pos h10]
      simp
    · rw [if_neg h10]
      rw [List.length_append]
      have hk1 : 1 ≤ k := by
        by_contra hc
        have : k = 0 := by omega
        subst this
        simp at h
        omega
      have : n / 10 < 10 ^ k := by
        rw [pow_succ] at h
        exact Nat.div_lt_of_lt_mul (by omega)
      have := ih this hk1
      simp
      omega

theorem digitsVal_padZeros (p : ℕ) (ds : List Char) :
    digitsVal (padZeros p ds) = digitsVal ds := by
  rw [padZeros, digitsVal, digitsVal, List.foldl_append]
  have : ∀ m, List.foldl (fun a c => 10 * a + dval c) 0 (List.replicate m '0') = 0 := by
    intro m
    induction m with
    | zero => rfl
    | succ m ihm =>
      rw [List.replicate_succ, List.foldl_cons]
      simpa using ihm
  rw [this]

theorem padZeros_length {p : ℕ} {ds : List Char} (h : ds.length ≤ p) :
    (padZeros p ds).length = p := by
  rw [padZeros, List.length_append, List.length_replicate]
  omega

theorem padZeros_all_digit {p : ℕ} {ds : List Char} (h : ∀ c ∈ ds, isDigit c = true) :
    ∀ c ∈ padZeros p ds, isDigit c = true := by
  intro c hc
  rw [padZeros, List.mem_append] at hc
  rcases hc with hc | hc
  · rw [List.eq_of_mem_replicate hc]
    decide
  · exact h c hc

/-! ## Helper lemmas: scanning and the parse/render round trip -/

theorem takeWhile_append_cons {p : Char → Bool} {l₁ l₂ : List Char} {x : Char}
    (h1 : ∀ c ∈ l₁, p c = true) (hx : p x = false) :
    (l₁ ++ x :: l₂).takeWhile p = l₁ := by
  induction l₁ with
  | nil => simp [List.takeWhile_cons, hx]
  | cons a t ih =>
    have ha : p a = true := h1 a (by simp)
    rw [List.cons_append, List.takeWhile_cons_of_pos ha,
      ih (fun c hc => h1 c (by simp [hc]))]

theorem dropWhile_append_cons {p : Char → Bool} {l₁ l₂ : List Char} {x : Char}
    (h1 : ∀ c ∈ l₁, p c = true) (hx : p x = false) :
    (l₁ ++ x :: l₂).dropWhile p = x :: l₂ := by
  induction l₁ with
  | nil => simp [List.dropWhile_cons, hx]
  | cons a t ih =>
    have ha : p a = true := h1 a (by simp)
    rw [List.cons_append, List.dropWhile_cons_of_pos ha,
      ih (fun c hc => h1 c (by simp [hc]))]

theorem takeWhile_all {p : Char → Bool} {l : List Char} (h : ∀ c ∈ l, p c = true) :
    l.takeWhile p = l :=
  List.takeWhile_eq_self_iff.mpr h

theorem dropWhile_all {p : Char → Bool} {l : List Char} (h : ∀ c ∈ l, p c = true) :
    l.dropWhile p = [] :=
  List.dropWhile_eq_nil_iff.mpr h

theorem filter_all {p : Char → Bool} {l : List Char} (h : ∀ c ∈ l, p c = true) :
    l.filter p = l :=
  List.filter_eq_self.mpr h

theorem map_id_of_mem {f : Char → Char} {l : List Char} (h : ∀ c ∈ l, f c = c) :
    l.map f = l := by
  induction l with
  | nil => rfl
  | cons a t ih => simp [h a (by simp), ih (fun c hc => h c (by simp [hc]))]

theorem ne_of_head_ne {a b : Char} {l₁ l₂ : List Char} (h : a ≠ b) :
    (a :: l₁) ≠ (b :: l₂) := by
  simp [h]

/-- A nonempty all-digit string parses through `parse_value` to its
numeric value. -/
theorem parse_value_plain {ds : List Char} (h : ∀ c ∈ ds, isDigit c = true) (hne : ds ≠ []) :
    parse_value ds = some (.finite (qnat (digitsVal ds))) := by
  obtain ⟨d, t, rfl⟩ : ∃ d t, ds = d :: t := by
    cases ds with
    | nil => exact absurd rfl hne
    | cons d t => exact ⟨d, t, rfl⟩
  have hd : isDigit d = true := h d (by simp)
  have hspecial := digit_ne_special hd
  rw [parse_value, stripCommas, filter_all (fun c hc => by
    have := digit_ne_special (h c hc)
    simpa using this.1)]
  rw [rustParse]
  have hsign : splitSign (d :: t) = (false, d :: t) := by
    rw [splitSign]
    simp only [if_neg hspecial.2.2.1, if_neg hspecial.2.1]
  rw [hsign]
  have hmap : (d :: t).map lowerChar = d :: t :=
    map_id_of_mem (fun c hc => lowerChar_of_digit (h c hc))
  simp only [hmap]
  have hne_inf : (d :: t) ≠ str "inf" := by
    apply ne_of_head_ne
    intro heq
    rw [heq] at hd
    exact absurd hd (by decide)
  have hne_infy : (d :: t) ≠ str "infinity" := by
    apply ne_of_head_ne
    intro heq
    rw [heq] at hd
    exact absurd hd (by decide)
  have hne_nan : (d :: t) ≠ str "nan" := by
    apply ne_of_head_ne
    intro heq
    rw [heq] at hd
    exact absurd hd (by decide)
  rw [if_neg (by simp [hne_inf, hne_infy]), if_neg hne_nan]
  have hnum : parseNumber (d :: t) = parseMantissa (d :: t) := by
    rw [parseNumber]
    have hall : ∀ c ∈ d :: t, (decide (c ≠ 'e' ∧ c ≠ 'E')) = true := by
      intro c hc
      have hs := digit_ne_special (h c hc)
      simp [hs.2.2.2.2.1, hs.2.2.2.2.2.1]
    rw [takeWhile_all hall, dropWhile_all hall]
  rw [hnum, parseMantissa]
  have hnodot : ∀ c ∈ d :: t, (decide (c ≠ '.')) = true := by
    intro c hc
    have hs := digit_ne_special (h c hc)
    simp [hs.2.2.2.1]
  rw [dropWhile_all hnodot]
  simp only [List.all_eq_true]
  rw [if_pos ⟨hne, h⟩]
  simp

/-- A digit string with one interior decimal point parses through
`parse_value` to its numeric value. -/
theorem parse_value_dotted {ip fp : List Char}
    (hip : ∀ c ∈ ip, isDigit c = true) (hfp : ∀ c ∈ fp, isDigit c = true)
    (hne : ip ≠ []) :
    parse_value (ip ++ '.' :: fp) =
      some (.finite (qadd (qnat (digitsVal ip)) (qdiv (qnat (digitsVal fp)) (qpow10 fp.length)))) := by
  obtain ⟨d, t, rfl⟩ : ∃ d t, ip = d :: t := by
    cases ip with
    | nil => exact absurd rfl hne
    | cons d t => exact ⟨d, t, rfl⟩
  have hd : isDigit d = true := hip d (by simp)
  have hspecial := digit_ne_special hd
  have hmemdig : ∀ c ∈ (d :: t) ++ '.' :: fp, isDigit c = true ∨ c = '.' := by
    intro c hc
    rw [List.mem_append] at hc
    rcases hc with hc | hc
    · exact Or.inl (hip c hc)
    · rcases List.mem_cons.mp hc with hc | hc
      · exact Or.inr hc
      · exact Or.inl (hfp c hc)
  rw [parse_value, stripCommas, filter_all (fun c hc => by
    rcases hmemdig c hc with hcd | hcd
    · simpa using (digit_ne_special hcd).1
    · rw [hcd]; decide)]
  rw [rustParse]
  have hsign : splitSign ((d :: t) ++ '.' :: fp) = (false, (d :: t) ++ '.' :: fp) := by
    rw [List.cons_append, splitSign]
    simp only [if_neg hspecial.2.2.1, if_neg hspecial.2.1]
  rw [hsign]
  have hmap : ((d :: t) ++ '.' :: fp).map lowerChar = (d :: t) ++ '.' :: fp :=
    map_id_of_mem (fun c hc => by
      rcases hmemdig c hc with hcd | hcd
      · exact lowerChar_of_digit hcd
      · rw [hcd]; decide)
  simp only [hmap]
  have hne_inf : d :: (t ++ '.' :: fp) ≠ str "inf" := by
    apply ne_of_head_ne
    intro heq
    rw [heq] at hd
    exact absurd hd (by decide)
  have hne_infy : d :: (t ++ '.' :: fp) ≠ str "infinity" := by
    apply ne_of_head_ne
    intro heq
    rw [heq] at hd
    exact absurd hd (by decide)
  have hne_nan : d :: (t ++ '.' :: fp) ≠ str "nan" := by
    apply ne_of_head_ne
    intro heq
    rw [heq] at hd
    exact absurd hd (by decide)
  rw [if_neg (by simp [hne_inf, hne_infy]), if_neg (by simp [hne_nan])]
  have hnum : parseNumber ((d :: t) ++ '.' :: fp) = parseMantissa ((d :: t) ++ '.' :: fp) := by
    rw [parseNumber]
    have hall : ∀ c ∈ (d :: t) ++ '.' :: fp, (decide (c ≠ 'e' ∧ c ≠ 'E')) = true := by
      intro c hc
      rcases hmemdig c hc with hcd | hcd
      · have hs := digit_ne_special hcd
        simp [hs.2.2.2.2.1, hs.2.2.2.2.2.1]
      · rw [hcd]; decide
    rw [takeWhile_all hall, dropWhile_all hall]
  rw [hnum, parseMantissa]
  have htake : ((d :: t) ++ '.' :: fp).takeWhile (fun c => decide (c ≠ '.')) = d :: t :=
    takeWhile_append_cons
      (fun c hc => by simpa using (digit_ne_special (hip c hc)).2.2.2.1) (by decide)
  have hdrop : ((d :: t) ++ '.' :: fp).dropWhile (fun c => decide (c ≠ '.')) = '.' :: fp :=
    dropWhile_append_cons
      (fun c hc => by simpa using (digit_ne_special (hip c hc)).2.2.2.1) (by decide)
  simp only [htake, hdrop]
  simp only [List.all_eq_true]
  rw [if_pos ⟨by simp, hip, hfp⟩]
  simp

theorem rhe_eq_floor_or (y : ℚ) : rhe y = ⌊y⌋ ∨ rhe y = ⌊y⌋ + 1 := by
  rw [rhe]
  simp only [qfloor_eq, qsub_eq, qint_eq, qdiv_eq, qnat_eq]
  split_ifs <;> simp

theorem rhe_nonneg {y : ℚ} (h : 0 ≤ y) : 0 ≤ rhe y := by
  rcases rhe_eq_floor_or y with heq | heq <;> rw [heq] <;>
    have := Int.le_floor.mpr (by exact_mod_cast h : ((0 : ℤ) : ℚ) ≤ y) <;> omega

theorem rhe_le_of_lt_int {y : ℚ} {m : ℤ} (h : y < m) : rhe y ≤ m := by
  have hfl : ⌊y⌋ < m := Int.floor_lt.mpr (by exact_mod_cast h)
  rcases rhe_eq_floor_or y with heq | heq <;> omega

/-- Auxiliary cast arithmetic: recombine euclidean digits over `10^p`. -/
theorem div_mod_cast_arith (n p : ℕ) :
    ((n / 10 ^ p : ℕ) : ℚ) + ((n % 10 ^ p : ℕ) : ℚ) / (10 : ℚ) ^ p = (n : ℚ) / (10 : ℚ) ^ p := by
  have h10 : ((10 : ℚ) ^ p) ≠ 0 := by positivity
  field_simp
  exact_mod_cast Nat.div_add_mod' n (10 ^ p)

/-- Round trip: a string rendered by `{:.p$}` on a nonnegative value
re-parses to exactly the rounded value. -/
theorem parse_fixedRender {p : ℕ} {x : ℚ} (hx : 0 ≤ x) :
    parse_value (fixedRender p x) =
      some (.finite (((rhe (x * (10 : ℚ) ^ p) : ℤ) : ℚ) / (10 : ℚ) ^ p)) := by
  have habs : qabs x = x := by rw [qabs_eq, abs_of_nonneg hx]
  have hqm : qmul (qabs x) (qpow10 p) = x * (10 : ℚ) ^ p := by
    rw [habs, qmul_eq, qpow10_eq]
  have hrnn : 0 ≤ rhe (x * (10 : ℚ) ^ p) := rhe_nonneg (by positivity)
  have hcast : (((rhe (x * (10 : ℚ) ^ p)).toNat : ℤ)) = rhe (x * (10 : ℚ) ^ p) :=
    Int.toNat_of_nonneg hrnn
  rw [fixedRender, hqm, if_neg (not_lt.mpr hx)]
  set n := (rhe (x * (10 : ℚ) ^ p)).toNat with hn
  have hncast : ((n : ℕ) : ℚ) = ((rhe (x * (10 : ℚ) ^ p) : ℤ) : ℚ) := by
    exact_mod_cast congrArg (fun z : ℤ => (z : ℚ)) hcast
  by_cases hp : p = 0
  · subst hp
    rw [if_pos rfl, List.append_nil]
    rw [parse_value_plain (natDigits_all_digit _) (natDigits_ne_nil _)]
    refine congrArg (fun q => some (Fp.finite q)) ?_
    rw [digitsVal_natDigits, qnat_eq]
    simp only [pow_zero, Nat.div_one, mul_one, div_one] at hncast ⊢
    exact hncast
  · rw [if_neg hp]
    rw [parse_value_dotted (natDigits_all_digit _)
      (padZeros_all_digit (natDigits_all_digit _)) (natDigits_ne_nil _)]
    refine congrArg (fun q => some (Fp.finite q)) ?_
    have hlen : (padZeros p (natDigits (n % 10 ^ p))).length = p :=
      padZeros_length (natDigits_length_le (Nat.mod_lt n (by positivity)) (by omega))
    rw [digitsVal_padZeros, digitsVal_natDigits, digitsVal_natDigits, hlen]
    rw [qadd_eq, qdiv_eq, qnat_eq, qnat_eq, qpow10_eq]
    rw [div_mod_cast_arith n p, hncast]

/-! ## Helper lemmas: the intword bucket scan -/

theorem POWERS_pos : ∀ i < 12, 0 < POWERS.getD i 0 := by
  intro i h
  interval_cases i <;> norm_num [POWERS, qnat_eq]

theorem POWERS_ratio_ge : ∀ j, j + 1 < 12 →
    (1000 : ℚ) ≤ POWERS.getD (j + 1) 0 / POWERS.getD j 0 := by
  intro j h
  have hj : j ≤ 10 := by omega
  interval_cases j <;> norm_num [POWERS, qnat_eq]

theorem feps_pos : 0 < feps := by
  norm_num [feps, qdiv_eq, qnat_eq]

theorem POWERS_last : POWERS.getD 11 0 = (10 : ℚ) ^ 100 := by
  norm_num [POWERS, qnat_eq]

theorem POWERS_first : POWERS.getD 0 0 = (1000 : ℚ) := by
  norm_num [POWERS, qnat_eq]

/-- Core of the rounding-boundary analysis: whatever bucket `j` the scan
labels its output with, the numeric part never re-parses to the ratio
between bucket `j+1` and bucket `j`. -/
theorem intwordPartsF_no_ratio {value : ℚ} {fmt ds : List Char}
    (hf : findFloatFormat fmt = some ds) (hN : digitsVal ds < 2 ^ 64) :
    ∀ f i s j, 1 ≤ i →
      POWERS.getD (i - 1) 0 ≤ value →
      intwordPartsF value fmt f i = some (s, j) →
      j + 1 < 12 →
      parse_value s ≠ some (.finite (POWERS.getD (j + 1) 0 / POWERS.getD j 0)) := by
  intro f
  induction f with
  | zero =>
    intro i s j h1 hlow hp hj
    simp [intwordPartsF] at hp
  | succ f ih =>
    intro i s j h1 hlow hp hj
    simp only [intwordPartsF] at hp
    by_cases hlt : value < POWERS.getD i 0
    · rw [if_pos hlt] at hp
      set chopped := qdiv value (POWERS.getD (i - 1) 0) with hchop
      set pd := qdiv (POWERS.getD i 0) (POWERS.getD (i - 1) 0) with hpd
      set formatted := apply_printf_style fmt chopped with hfmtd
      by_cases hcond : parseCond formatted chopped pd = true
      · rw [if_pos hcond] at hp
        have hs : apply_printf_style fmt (qdiv value (POWERS.getD i 0)) = s :=
          congrArg Prod.fst (Option.some.inj hp)
        have hji : i = j := congrArg Prod.snd (Option.some.inj hp)
        subst hji
        have hipos : 0 < POWERS.getD i 0 := POWERS_pos i (by omega)
        have hprev : 0 < POWERS.getD (i - 1) 0 := POWERS_pos (i - 1) (by omega)
        have hvpos : 0 ≤ value := le_trans (le_of_lt hprev) hlow
        have hch2 : qdiv value (POWERS.getD i 0) = value / POWERS.getD i 0 := qdiv_eq _ _
        have hnn : 0 ≤ value / POWERS.getD i 0 := by positivity
        have hlt1 : value / POWERS.getD i 0 < 1 := (div_lt_one hipos).mpr hlt
        have happ : apply_printf_style fmt (qdiv value (POWERS.getD i 0)) =
            fixedRender (digitsVal ds) (qdiv value (POWERS.getD i 0)) := by
          simp only [apply_printf_style, hf]
          rw [if_pos hN]
        rw [← hs, happ, hch2, parse_fixedRender hnn]
        set N := digitsVal ds
        intro hcontra
        have hqe : ((rhe (value / POWERS.getD i 0 * (10 : ℚ) ^ N) : ℤ) : ℚ) /
            (10 : ℚ) ^ N = POWERS.getD (i + 1) 0 / POWERS.getD i 0 := by
          simpa using Option.some.inj hcontra
        have hargs : value / POWERS.getD i 0 * (10 : ℚ) ^ N < ((10 ^ N : ℤ) : ℚ) := by
          push_cast
          have hpow : (0 : ℚ) < (10 : ℚ) ^ N := by positivity
          calc value / POWERS.getD i 0 * (10 : ℚ) ^ N < 1 * (10 : ℚ) ^ N :=
                mul_lt_mul_of_pos_right hlt1 hpow
            _ = (10 : ℚ) ^ N := one_mul _
        have hrle : rhe (value / POWERS.getD i 0 * (10 : ℚ) ^ N) ≤ 10 ^ N :=
          rhe_le_of_lt_int hargs
        have hle1 : ((rhe (value / POWERS.getD i 0 * (10 : ℚ) ^ N) : ℤ) : ℚ) /
            (10 : ℚ) ^ N ≤ 1 := by
          rw [div_le_one (by positivity)]
          exact_mod_cast hrle
        have hge : (1000 : ℚ) ≤ POWERS.getD (i + 1) 0 / POWERS.getD i 0 :=
          POWERS_ratio_ge i hj
        rw [hqe] at hle1
        linarith
      · rw [if_neg hcond] at hp
        have hs : formatted = s := congrArg Prod.fst (Option.some.inj hp)
        have hji : i - 1 = j := congrArg Prod.snd (Option.some.inj hp)
        have hji1 : j + 1 = i := by omega
        rw [← hs]
        rcases hpv : parse_value formatted with _ | v
        · exact fun hcontra => Option.noConfusion hcontra
        · rcases v with q | pos | _
          · have hcondval : parseCond formatted chopped pd =
                decide (qabs (qsub q pd) < feps) := by
              rw [parseCond, hpv]
            have hne : q ≠ pd := by
              intro hqe
              apply hcond
              rw [hcondval]
              apply decide_eq_true
              rw [hqe]
              simp only [qabs_eq, qsub_eq, sub_self, abs_zero]
              exact feps_pos
            intro hcontra
            apply hne
            have hq : q = POWERS.getD (j + 1) 0 / POWERS.getD j 0 := by
              simpa using Option.some.inj hcontra
            rw [hq, hpd, qdiv_eq, hji1, ← hji]
          · exact fun hcontra => Fp.noConfusion (Option.some.inj hcontra)
          · exact fun hcontra => Fp.noConfusion (Option.some.inj hcontra)
    · rw [if_neg hlt] at hp
      exact ih (i + 1) s j (by omega) (by simpa using not_lt.mp hlt) hp hj

/-- The scan's rendering agrees with the decomposed numeric part and
bucket word. -/
theorem intwordLoopF_eq_parts (value : ℚ) (fmt : List Char) :
    ∀ f i, intwordLoopF value fmt f i =
      (match intwordPartsF value fmt f i with
       | some (s, j) => s ++ ' ' :: HUMAN_POWERS.getD j []
       | none => natRender value) := by
  intro f
  induction f with
  | zero => intro i; rfl
  | succ f ih =>
    intro i
    simp only [intwordLoopF, intwordPartsF]
    split_ifs with h1 h2
    · rfl
    · rfl
    · exact ih (i + 1)

theorem intword_num_eq {x : ℚ} (fmt : List Char) (h : ¬ qabs x < POWERS.getD 0 0) :
    intword_num x fmt = (if x < 0 then ['-'] else []) ++ intwordLoopF (qabs x) fmt 11 1 := by
  rw [intword_num, if_neg h]

/-- C1: for a finite value of magnitude in `[1000, 1e100)` formatted at a
requested precision `%.N f`, the output is the scan's numeric part
labelled with its bucket word, and that numeric part never re-parses to
the ratio `POWERS[j+1]/POWERS[j]` of the bucket word it carries — the
rounding-boundary correction discards a rendering equal to the ratio and
promotes one bucket instead, so outputs like `"1000.0 million"` are
impossible. -/
theorem intword_no_bucket_ratio_output (x : ℚ) (fmt ds s : List Char) (j : ℕ)
    (hf : findFloatFormat fmt = some ds) (hN : digitsVal ds < 2 ^ 64)
    (h1 : (1000 : ℚ) ≤ |x|) (_h2 : |x| < (10 : ℚ) ^ 100)
    (hp : intwordPartsF (qabs x) fmt 11 1 = some (s, j)) (hj : j + 1 < 12) :
    intword_num x fmt =
      (if x < 0 then ['-'] else []) ++ (s ++ ' ' :: HUMAN_POWERS.getD j []) ∧
    parse_value s ≠ some (.finite (POWERS.getD (j + 1) 0 / POWERS.getD j 0)) := by
  have habs : qabs x = |x| := qabs_eq x
  have hnotlt : ¬ qabs x < POWERS.getD 0 0 := by
    rw [habs, POWERS_first]
    exact not_lt.mpr h1
  constructor
  · rw [intword_num_eq fmt hnotlt, intwordLoopF_eq_parts, hp]
  · exact intwordPartsF_no_ratio hf hN 11 1 s j (by omega)
      (by rw [habs]; simpa [POWERS_first] using h1) hp hj

/-- Witness for C1 at `x = 1234000`, `fmt = "%.1f"`: the scan yields
numeric part `"1.2"` in bucket 1 ("million"), the assembled output is
`"1.2 million"`, and `"1.2"` does not re-parse to the bucket ratio. -/
theorem intword_no_bucket_ratio_output_witness :
    (1000 : ℚ) ≤ |(1234000 : ℚ)| ∧ |(1234000 : ℚ)| < (10 : ℚ) ^ 100 ∧
    intword_num 1234000 (str "%.1f") = str "1.2 million" ∧
    parse_value (str "1.2") ≠ some (.finite (POWERS.getD 2 0 / POWERS.getD 1 0)) := by
  have h := intword_no_bucket_ratio_output 1234000 (str "%.1f") ['1'] (str "1.2") 1
    (by decide) (by decide) (by norm_num) (by norm_num)
    (by decide) (by norm_num)
  refine ⟨by norm_num, by norm_num, ?_, h.2⟩
  rw [h.1]
  decide

/-! ## Helper lemmas: digit grouping (add_commas) -/

theorem goAC_filter {l : List Char} (h : ∀ c ∈ l, c ≠ ',') :
    ∀ cnt, (goAC l cnt).filter (· ≠ ',') = l := by
  induction l with
  | nil => intro cnt; rfl
  | cons c cs ih =>
    intro cnt
    have hc : c ≠ ',' := h c (by simp)
    have ht : ∀ x ∈ cs, x ≠ ',' := fun x hx => h x (by simp [hx])
    rw [goAC]
    by_cases h3 : cnt = 3
    · rw [if_pos h3]
      simp only [List.filter_cons]
      rw [if_neg (by simp), if_pos (by simpa using hc)]
      rw [ih ht 1]
    · rw [if_neg h3]
      simp only [List.filter_cons]
      rw [if_pos (by simpa using hc)]
      rw [ih ht (cnt + 1)]

theorem goAC_comma_pos {l : List Char} (h : ∀ c ∈ l, c ≠ ',') :
    ∀ cnt, cnt ≤ 3 → ∀ k, k < (goAC l cnt).length →
      ((goAC l cnt).getD k 'x' = ',' ↔ (k + cnt) % 4 = 3) := by
  induction l with
  | nil =>
    intro cnt hcnt k hk
    simp [goAC] at hk
  | cons c cs ih =>
    intro cnt hcnt k hk
    have hc : c ≠ ',' := h c (by simp)
    have ht : ∀ x ∈ cs, x ≠ ',' := fun x hx => h x (by simp [hx])
    rw [goAC] at hk ⊢
    by_cases h3 : cnt = 3
    · rw [if_pos h3] at hk ⊢
      subst h3
      match k with
      | 0 => simp
      | 1 =>
        simp only [List.getD_cons_succ, List.getD_cons_zero]
        constructor
        · intro hcc; exact absurd hcc hc
        · intro hmod; omega
      | k + 2 =>
        simp only [List.getD_cons_succ]
        rw [List.length_cons, List.length_cons] at hk
        rw [ih ht 1 (by omega) k (by omega)]
        omega
    · rw [if_neg h3] at hk ⊢
      match k with
      | 0 =>
        simp only [List.getD_cons_zero]
        constructor
        · intro hcc; exact absurd hcc hc
        · intro hmod; omega
      | k + 1 =>
        simp only [List.getD_cons_succ]
        rw [List.length_cons] at hk
        rw [ih ht (cnt + 1) (by omega) k (by omega)]
        omega

/-- C5: for a nonempty digit string with no leading zero, deleting the
commas that `add_commas` inserts restores the input exactly, and in the
output a comma sits exactly at the positions whose distance from the
right end is `3 mod 4` — i.e. before every third digit counting from the
rightmost, and nowhere else (in particular never before a short leading
group). -/
theorem add_commas_grouping (s : List Char) (_hne : s ≠ [])
    (hdig : ∀ c ∈ s, isDigit c = true) (_hlead : s.head? ≠ some '0') :
    (add_commas s).filter (· ≠ ',') = s ∧
    ∀ k, k < (add_commas s).length →
      ((add_commas s).reverse.getD k 'x' = ',' ↔ k % 4 = 3) := by
  have hnc : ∀ c ∈ s.reverse, c ≠ ',' := by
    intro c hc
    rw [List.mem_reverse] at hc
    exact (digit_ne_special (hdig c hc)).1
  constructor
  · rw [add_commas]
    rw [List.filter_reverse, goAC_filter hnc 0, List.reverse_reverse]
  · intro k hk
    rw [add_commas, List.length_reverse] at hk
    rw [add_commas, List.reverse_reverse]
    rw [goAC_comma_pos hnc 0 (by omega) k hk]
    omega

/-- Witness for C5 at `s = "1234567"` (output `"1,234,567"`). -/
theorem add_commas_grouping_witness :
    (str "1234567" ≠ [] ∧ (∀ c ∈ str "1234567", isDigit c = true) ∧
      (str "1234567").head? ≠ some '0') ∧
    (add_commas (str "1234567")).filter (· ≠ ',') = str "1234567" ∧
    ∀ k, k < (add_commas (str "1234567")).length →
      ((add_commas (str "1234567")).reverse.getD k 'x' = ',' ↔ k % 4 = 3) :=
  ⟨⟨by decide, by decide, by decide⟩,
    add_commas_grouping (str "1234567") (by decide) (by decide) (by decide)⟩

/-! ## C10 and C9 -/

/-- C10: comma stripping before numeric parsing is position-insensitive —
`parse_value` gives the same result on a string and on its comma-free
form — and intcomma regroups a misplaced-comma digit string canonically. -/
theorem parse_value_comma_insensitive :
    (∀ s : List Char, parse_value s = parse_value (stripCommas s)) ∧
    format_single_value (str "1,2,3,4,5,6,7") none = str "1,234,567" := by
  constructor
  · intro s
    rw [parse_value, parse_value, stripCommas, stripCommas, List.filter_filter]
    simp
  · decide

/-- C9: the already-normalized tokens `"+Inf"`, `"-Inf"`, `"NaN"` pass
through intcomma (`format_single_value`), intword (`intword_single`) and
naturalsize (both the scalar string path and the batch element path)
unchanged, for every precision/format/flag argument. -/
theorem special_token_idempotent :
    ∀ (nd : Option ℕ) (fmtw : List Char) (binary gnu : Bool) (fmtn : List Char),
    format_single_value (str "+Inf") nd = str "+Inf" ∧
    format_single_value (str "-Inf") nd = str "-Inf" ∧
    format_single_value (str "NaN") nd = str "NaN" ∧
    intword_single (str "+Inf") fmtw = str "+Inf" ∧
    intword_single (str "-Inf") fmtw = str "-Inf" ∧
    intword_single (str "NaN") fmtw = str "NaN" ∧
    naturalsizeStr (str "+Inf") binary gnu fmtn = str "+Inf" ∧
    naturalsizeStr (str "-Inf") binary gnu fmtn = str "-Inf" ∧
    naturalsizeStr (str "NaN") binary gnu fmtn = str "NaN" ∧
    naturalsizeElem (extract_to_extracted (str "+Inf")) binary gnu fmtn = str "+Inf" ∧
    naturalsizeElem (extract_to_extracted (str "-Inf")) binary gnu fmtn = str "-Inf" ∧
    naturalsizeElem (extract_to_extracted (str "NaN")) binary gnu fmtn = str "NaN" := by
  intro nd fmtw binary gnu fmtn
  exact ⟨rfl, rfl, rfl, rfl, rfl, rfl, rfl, rfl, rfl, rfl, rfl, rfl⟩

/-! ## C8: the sub-base branches of naturalsize -/

/-- C8: a finite value of magnitude exactly 1 renders as the singular
`"<int> Byte"` when `gnu` is off; any other finite value below the base
(1024 with `gnu` or `binary`, else 1000) renders unscaled as `"<int>B"`
under `gnu` and `"<int> Bytes"` otherwise. -/
theorem naturalsize_small_values :
    ∀ (v : ℚ) (binary gnu : Bool) (fmt : List Char),
    (|v| = 1 → gnu = false →
      format_numeric_value v binary gnu fmt = intRender (truncI v) ++ str " Byte") ∧
    (|v| < (if gnu || binary then (1024 : ℚ) else 1000) → ¬(|v| = 1 ∧ gnu = false) →
      format_numeric_value v binary gnu fmt =
        (if gnu then intRender (truncI v) ++ str "B"
         else intRender (truncI v) ++ str " Bytes")) := by
  intro v binary gnu fmt
  have habs : qabs v = |v| := qabs_eq v
  have hone : qnat 1 = (1 : ℚ) := by norm_num [qnat_eq]
  have hbase : (if gnu || binary then qnat 1024 else qnat 1000) =
      (if gnu || binary then (1024 : ℚ) else 1000) := by
    cases hgb : gnu || binary <;> simp [qnat_eq]
  constructor
  · intro hv hg
    simp only [format_numeric_value]
    rw [if_pos ⟨by rw [habs, hone, hv], hg⟩]
  · intro hlt hnot
    simp only [format_numeric_value]
    rw [if_neg (by rw [habs, hone]; exact hnot), if_pos (by rw [habs, hbase]; exact hlt)]

/-- Witness for C8 at `v = 1` (singular byte) and `v = 500` (plural,
no scaling). -/
theorem naturalsize_small_values_witness :
    (|(1 : ℚ)| = 1 ∧ format_numeric_value 1 false false [] = str "1 Byte") ∧
    (|(500 : ℚ)| < (if (false || false : Bool) then (1024 : ℚ) else 1000) ∧
      format_numeric_value 500 false false [] = str "500 Bytes") := by
  constructor
  · refine ⟨by norm_num, ?_⟩
    rw [(naturalsize_small_values 1 false false []).1 (by norm_num) rfl]
    decide
  · refine ⟨by norm_num, ?_⟩
    rw [(naturalsize_small_values 500 false false []).2 (by norm_num) (by norm_num)]
    decide

/-! ## C7: the logarithmic bucket of naturalsize -/

theorem logFuel_eq_log (b : ℕ) : ∀ f m, m ≤ f → logFuel b f m = Nat.log b m := by
  intro f
  induction f with
  | zero =>
    intro m h
    have : m = 0 := by omega
    subst this
    rw [logFuel]
    simp
  | succ f ih =>
    intro m h
    rw [logFuel]
    by_cases hc : b ≤ m ∧ 1 < b
    · rw [if_pos hc]
      have hdiv : m / b < m := Nat.div_lt_self (by omega) hc.2
      rw [ih (m / b) (by omega)]
      conv_rhs => rw [Nat.log]
      rw [dif_pos hc]
    · rw [if_neg hc]
      conv_rhs => rw [Nat.log]
      rw [dif_neg hc]

theorem floorLog_eq (b n : ℕ) : floorLog b n = Nat.log b n :=
  logFuel_eq_log b n n le_rfl

/-- C7: when the magnitude reaches the base, naturalsize selects the
bucket exponent `e = clamp(⌊log_base |v|⌋, 1, 10)` — characterized by
`base^e ≤ |v| < base^(e+1)` whenever the upper clamp is not active —
divides the value by `base^e`, renders it at the requested precision, and
appends the unit found at index `e-1` of the selected table. -/
theorem naturalsize_bucket (v : ℚ) (binary gnu : Bool) (fmt : List Char)
    (h : (if gnu || binary then (1024 : ℚ) else 1000) ≤ |v|) :
    ∃ e : ℕ, 1 ≤ e ∧ e ≤ 10 ∧
      (if gnu || binary then (1024 : ℚ) else 1000) ^ e ≤ |v| ∧
      (e < 10 → |v| < (if gnu || binary then (1024 : ℚ) else 1000) ^ (e + 1)) ∧
      format_numeric_value v binary gnu fmt =
        apply_printf_style fmt (v / (if gnu || binary then (1024 : ℚ) else 1000) ^ e) ++
          (if gnu then [SUFFIXES_GNU.getD (e - 1) '?']
           else (if binary then SUFFIXES_BINARY else SUFFIXES_DECIMAL).getD (e - 1) []) := by
  have habs : qabs v = |v| := qabs_eq v
  have hone : qnat 1 = (1 : ℚ) := by norm_num [qnat_eq]
  have hbig : (1000 : ℚ) ≤ (if gnu || binary then (1024 : ℚ) else 1000) := by
    cases gnu || binary <;> norm_num
  have hbaseQ : (if gnu || binary then qnat 1024 else qnat 1000) =
      (if gnu || binary then (1024 : ℚ) else 1000) := by
    cases gnu || binary <;> simp [qnat_eq]
  have hbaseN : (((if gnu || binary then (1024 : ℕ) else 1000) : ℕ) : ℚ) =
      (if gnu || binary then (1024 : ℚ) else 1000) := by
    cases gnu || binary <;> norm_num
  set bN : ℕ := if gnu || binary then (1024 : ℕ) else 1000 with hbN
  have hb1 : 1 < bN := by rw [hbN]; cases gnu || binary <;> norm_num
  set m : ℕ := (qfloor (qabs v)).toNat with hm
  have hv0 : (0 : ℚ) ≤ |v| := abs_nonneg v
  have hfl0 : 0 ≤ qfloor (qabs v) := by
    rw [qfloor_eq, habs]
    exact Int.floor_nonneg.mpr hv0
  have hmcast : ((m : ℕ) : ℚ) ≤ |v| := by
    rw [hm, qfloor_eq, habs]
    rw [show ((((⌊|v|⌋).toNat : ℕ)) : ℚ) = ((⌊|v|⌋ : ℤ) : ℚ) by
      exact_mod_cast congrArg (fun z : ℤ => (z : ℚ)) (Int.toNat_of_nonneg (by
        rw [qfloor_eq, habs] at hfl0; exact hfl0))]
    exact Int.floor_le |v|
  have hvm1 : |v| < (m : ℚ) + 1 := by
    rw [hm, qfloor_eq, habs]
    rw [show ((((⌊|v|⌋).toNat : ℕ)) : ℚ) = ((⌊|v|⌋ : ℤ) : ℚ) by
      exact_mod_cast congrArg (fun z : ℤ => (z : ℚ)) (Int.toNat_of_nonneg (by
        rw [qfloor_eq, habs] at hfl0; exact hfl0))]
    exact Int.lt_floor_add_one |v|
  have hbm : bN ≤ m := by
    have : ((bN : ℕ) : ℚ) ≤ |v| := by rw [hbaseN]; exact h
    have h2 : ((bN : ℤ)) ≤ ⌊|v|⌋ := Int.le_floor.mpr (by exact_mod_cast this)
    rw [hm, qfloor_eq, habs]
    omega
  have hm0 : m ≠ 0 := by omega
  set e0 : ℕ := Nat.log bN m with he0
  have he0pos : 0 < e0 := by
    rw [he0]
    exact Nat.log_pos hb1 hbm
  have hlow : bN ^ e0 ≤ m := by
    rw [he0]
    exact Nat.pow_log_le_self bN hm0
  have hhigh : m < bN ^ (e0 + 1) := by
    rw [he0]
    exact Nat.lt_pow_succ_log_self hb1 m
  -- the code's clamp
  set e : ℕ := if (if 10 < e0 then 10 else e0) < 1 then 1 else (if 10 < e0 then 10 else e0)
    with he
  have he1 : 1 ≤ e := by rw [he]; split_ifs <;> omega
  have he10 : e ≤ 10 := by rw [he]; split_ifs <;> omega
  have hlowQ : (if gnu || binary then (1024 : ℚ) else 1000) ^ e ≤ |v| := by
    have hlee : e ≤ e0 := by
      rw [he]
      split_ifs <;> omega
    have hne : bN ^ e ≤ m :=
      le_trans (Nat.pow_le_pow_right (by omega) hlee) hlow
    calc (if gnu || binary then (1024 : ℚ) else 1000) ^ e = ((bN : ℕ) : ℚ) ^ e := by
          rw [hbaseN]
      _ = (((bN ^ e : ℕ) : ℕ) : ℚ) := by push_cast; ring
      _ ≤ (m : ℚ) := by exact_mod_cast hne
      _ ≤ |v| := hmcast
  have hhighQ : e < 10 → |v| < (if gnu || binary then (1024 : ℚ) else 1000) ^ (e + 1) := by
    intro helt
    have hee0 : e = e0 := by
      rw [he] at helt ⊢
      split_ifs at helt ⊢ <;> omega
    have hnm : m + 1 ≤ bN ^ (e + 1) := by
      rw [hee0]
      omega
    calc |v| < (m : ℚ) + 1 := hvm1
      _ = (((m + 1 : ℕ) : ℕ) : ℚ) := by push_cast; ring
      _ ≤ (((bN ^ (e + 1) : ℕ) : ℕ) : ℚ) := by exact_mod_cast hnm
      _ = (if gnu || binary then (1024 : ℚ) else 1000) ^ (e + 1) := by
          rw [← hbaseN]; push_cast; ring
  refine ⟨e, he1, he10, hlowQ, hhighQ, ?_⟩
  simp only [format_numeric_value]
  rw [if_neg (by
    intro hcontra
    rw [habs, hone] at hcontra
    have : (1000 : ℚ) ≤ (1 : ℚ) := by rw [← hcontra.1]; exact le_trans hbig h
    norm_num at this)]
  rw [if_neg (by rw [habs, hbaseQ]; exact not_lt.mpr h)]
  have hflog : floorLog bN m = e0 := by
    rw [floorLog_eq]
  rw [hflog]
  have hdivQ : qdiv v (qnat (bN ^
      (if (if 10 < e0 then 10 else e0) < 1 then 1 else if 10 < e0 then 10 else e0))) =
      v / (if gnu || binary then (1024 : ℚ) else 1000) ^ e := by
    rw [qdiv_eq, qnat_eq, ← he]
    congr 1
    rw [← hbaseN]
    push_cast
    ring
  rw [hdivQ, ← he]
  cases gnu <;> simp

/-- Witness for C7 at `v = 10^12` in the decimal scheme (`"1.0 TB"`,
bucket exponent 4). -/
theorem naturalsize_bucket_witness :
    (if (false || false : Bool) then (1024 : ℚ) else 1000) ≤ |(1000000000000 : ℚ)| ∧
    (∃ e : ℕ, 1 ≤ e ∧ e ≤ 10 ∧
      (if (false || false : Bool) then (1024 : ℚ) else 1000) ^ e ≤ |(1000000000000 : ℚ)| ∧
      (e < 10 → |(1000000000000 : ℚ)| <
        (if (false || false : Bool) then (1024 : ℚ) else 1000) ^ (e + 1)) ∧
      format_numeric_value 1000000000000 false false (str "%.1f") =
        apply_printf_style (str "%.1f")
          ((1000000000000 : ℚ) / (if (false || false : Bool) then (1024 : ℚ) else 1000) ^ e) ++
          (if (false : Bool) then [SUFFIXES_GNU.getD (e - 1) '?']
           else (if (false : Bool) then SUFFIXES_BINARY else SUFFIXES_DECIMAL).getD (e - 1) [])) :=
  ⟨by norm_num, naturalsize_bucket 1000000000000 false false (str "%.1f") (by norm_num)⟩

/-! ## C6: the printf-style spec handler -/

/-- One-step unfolding of the regex scan. -/
theorem findFloatFormat_cons (c : Char) (rest : List Char) :
    findFloatFormat (c :: rest) =
      if c = '%' then
        (match rest with
         | c2 :: r2 =>
            if c2 = '.' then
              (if (r2.takeWhile isDigit).isEmpty then findFloatFormat rest
               else
                match r2.drop (r2.takeWhile isDigit).length with
                | c3 :: _ =>
                  if c3 = 'f' then some (r2.takeWhile isDigit) else findFloatFormat rest
                | [] => findFloatFormat rest)
            else findFloatFormat rest
         | [] => findFloatFormat rest)
      else findFloatFormat rest := rfl

theorem dropWhile_eq_drop_len_takeWhile (p : Char → Bool) (l : List Char) :
    l.dropWhile p = l.drop (l.takeWhile p).length := by
  induction l with
  | nil => rfl
  | cons c t ih =>
    by_cases hc : p c = true
    · rw [List.takeWhile_cons_of_pos hc, List.dropWhile_cons_of_pos hc,
        List.length_cons, List.drop_succ_cons, ih]
    · rw [List.takeWhile_cons_of_neg (by simpa using hc),
        List.dropWhile_cons_of_neg (by simpa using hc), List.length_nil, List.drop_zero]

/-- A successful regex search certifies a `%.<digits>f` substring. -/
theorem findFloatFormat_some_sub :
    ∀ {cs ds : List Char}, findFloatFormat cs = some ds →
      (∃ a b, cs = a ++ '%' :: '.' :: (ds ++ 'f' :: b)) ∧ ds ≠ [] ∧
        ∀ c ∈ ds, isDigit c = true := by
  intro cs
  induction cs with
  | nil => intro ds h; exact absurd h (by simp [findFloatFormat])
  | cons c rest ih =>
    intro ds h
    rw [findFloatFormat_cons] at h
    by_cases hc : c = '%'
    · rw [if_pos hc] at h
      subst hc
      rcases rest with _ | ⟨c2, r2⟩
      · simp only [] at h
        obtain ⟨⟨a, b, hsplit⟩, hne, hdig⟩ := ih h
        exact ⟨⟨'%' :: a, b, by rw [hsplit]; rfl⟩, hne, hdig⟩
      · simp only [] at h
        by_cases hc2 : c2 = '.'
        · rw [if_pos hc2] at h
          subst hc2
          by_cases hemp : (r2.takeWhile isDigit).isEmpty = true
          · rw [if_pos hemp] at h
            obtain ⟨⟨a, b, hsplit⟩, hne, hdig⟩ := ih h
            exact ⟨⟨'%' :: a, b, by rw [hsplit]; rfl⟩, hne, hdig⟩
          · rw [if_neg hemp] at h
            rcases hdrop : r2.drop (r2.takeWhile isDigit).length with _ | ⟨c3, r3⟩
            · rw [hdrop] at h
              simp only [] at h
              obtain ⟨⟨a, b, hsplit⟩, hne, hdig⟩ := ih h
              exact ⟨⟨'%' :: a, b, by rw [hsplit]; rfl⟩, hne, hdig⟩
            · rw [hdrop] at h
              simp only [] at h
              by_cases hc3 : c3 = 'f'
              · rw [if_pos hc3] at h
                subst hc3
                have hds : ds = r2.takeWhile isDigit := (Option.some.inj h).symm
                refine ⟨⟨[], r3, ?_⟩, ?_, ?_⟩
                · rw [List.nil_append, hds]
                  have hr2 : r2 =
                      r2.takeWhile isDigit ++ r2.drop (r2.takeWhile isDigit).length := by
                    conv_lhs =>
                      rw [← List.takeWhile_append_dropWhile (p := isDigit) (l := r2)]
                    rw [dropWhile_eq_drop_len_takeWhile]
                  rw [show ('%' :: '.' :: r2 : List Char) = '%' :: '.' ::
                      (r2.takeWhile isDigit ++ r2.drop (r2.takeWhile isDigit).length)
                    from by rw [← hr2]]
                  rw [hdrop]
                · rw [hds]
                  intro hcontra
                  rw [hcontra] at hemp
                  exact hemp rfl
                · rw [hds]
                  intro x hx
                  exact List.mem_takeWhile_imp hx
              · rw [if_neg hc3] at h
                obtain ⟨⟨a, b, hsplit⟩, hne, hdig⟩ := ih h
                exact ⟨⟨'%' :: a, b, by rw [hsplit]; rfl⟩, hne, hdig⟩
        · rw [if_neg hc2] at h
          obtain ⟨⟨a, b, hsplit⟩, hne, hdig⟩ := ih h
          exact ⟨⟨'%' :: a, b, by rw [hsplit]; rfl⟩, hne, hdig⟩
    · rw [if_neg hc] at h
      obtain ⟨⟨a, b, hsplit⟩, hne, hdig⟩ := ih h
      exact ⟨⟨c :: a, b, by rw [hsplit]; rfl⟩, hne, hdig⟩

/-- The regex search recognizes a spec that is exactly `%.<digits>f`. -/
theorem findFloatFormat_exact {ds : List Char} (hne : ds ≠ [])
    (hdig : ∀ c ∈ ds, isDigit c = true) :
    findFloatFormat ('%' :: '.' :: (ds ++ ['f'])) = some ds := by
  rw [findFloatFormat_cons]
  rw [if_pos rfl]
  simp only [if_true]
  have htake : (ds ++ ['f']).takeWhile isDigit = ds :=
    takeWhile_append_cons hdig (by decide)
  rw [htake]
  rw [if_neg (by simpa [List.isEmpty_iff] using hne)]
  have hdrop : (ds ++ ['f']).drop ds.length = ['f'] := List.drop_left ds ['f']
  rw [hdrop]
  simp

/-- C6 (amended): a spec that is exactly `%.<N>f` (with `N` fitting in a
64-bit `usize`) applies the fixed fractional-digit count, and a spec with
no `%.<digits>f` substring anywhere renders at natural precision.  (The
claim's "exactly when" fails: the handler searches for the pattern as a
substring, see the counterexample.) -/
theorem apply_printf_spec_characterization :
    ∀ (spec : List Char) (v : ℚ),
    ((¬ ∃ a ds b, spec = a ++ '%' :: '.' :: (ds ++ 'f' :: b) ∧ ds ≠ [] ∧
        ∀ c ∈ ds, isDigit c = true) →
      apply_printf_style spec v = natRender v) ∧
    (∀ ds : List Char, ds ≠ [] → (∀ c ∈ ds, isDigit c = true) →
      digitsVal ds < 2 ^ 64 → spec = '%' :: '.' :: (ds ++ ['f']) →
      apply_printf_style spec v = fixedRender (digitsVal ds) v) := by
  intro spec v
  constructor
  · intro hno
    rw [apply_printf_style]
    rcases hfind : findFloatFormat spec with _ | ds
    · rfl
    · exfalso
      obtain ⟨⟨a, b, hsplit⟩, hne, hdig⟩ := findFloatFormat_some_sub hfind
      exact hno ⟨a, ds, b, hsplit, hne, hdig⟩
  · intro ds hne hdig hlt hspec
    subst hspec
    rw [apply_printf_style, findFloatFormat_exact hne hdig]
    simp only [if_pos hlt]

/-- C6 counterexample: the spec `"x%.2f"` is not of the form `%.<N>f`
(it has a leading `x`), yet the handler applies the two-digit precision
instead of rendering naturally. -/
theorem apply_printf_spec_cex :
    apply_printf_style (str "x%.2f") (qdiv (qnat 1) (qnat 2)) ≠
      natRender (qdiv (qnat 1) (qnat 2)) ∧
    apply_printf_style (str "x%.2f") (qdiv (qnat 1) (qnat 2)) = str "0.50" ∧
    natRender (qdiv (qnat 1) (qnat 2)) = str "0.5" := by
  refine ⟨?_, by decide, by decide⟩
  decide

/-- Witness for the amended C6 at the exact spec `"%.3f"`. -/
theorem apply_printf_spec_characterization_witness :
    str "%.3f" = '%' :: '.' :: (['3'] ++ ['f']) ∧
    apply_printf_style (str "%.3f") (qdiv (qnat 1) (qnat 8)) =
      fixedRender (digitsVal ['3']) (qdiv (qnat 1) (qnat 8)) :=
  ⟨rfl, (apply_printf_spec_characterization (str "%.3f") (qdiv (qnat 1) (qnat 8))).2
    ['3'] (by decide) (by decide) (by decide) rfl⟩

/-! ## C4: non-finite rendering -/

/-- C4 counterexample: the input `"infinity"` parses to positive infinity
and reaches the `lib.rs` intcomma pipeline, whose output is `"Inf"` —
not the `"+Inf"` the claim requires of every formatter. -/
theorem non_finite_plus_inf_cex :
    parse_value (str "infinity") = some (.inf true) ∧
    lib_format_single_value (str "infinity") none = str "Inf" ∧
    str "Inf" ≠ str "+Inf" := by
  refine ⟨by decide, by decide, by decide⟩

/-- C4 (amended): a non-finite value reaching a formatter is rendered by
that formatter's `format_not_finite`; the `format_utils.rs` version used
by `number.rs` intcomma/intword and `filesize.rs` naturalsize yields
`"+Inf"`/`"-Inf"`/`"NaN"`, while the duplicate pipeline in `lib.rs`
renders positive infinity as `"Inf"` without the sign.  No error is
raised (the functions are total). -/
theorem non_finite_rendering (s : List Char) (nd : Option ℕ)
    (fs : List Char) (binary gnu : Bool) (fmt : List Char) (v : Fp)
    (hn : normalize_special_values s = none) (hp : parse_value s = some v)
    (hf : v.isFinite = false) :
    format_single_value s nd = format_not_finite v ∧
    intword_single s fs = format_not_finite v ∧
    naturalsizeStr s binary gnu fmt = format_not_finite v ∧
    naturalsizeElem (extract_to_extracted s) binary gnu fmt = format_not_finite v ∧
    lib_format_single_value s nd = lib_format_not_finite v ∧
    format_not_finite (.inf true) = str "+Inf" ∧
    format_not_finite (.inf false) = str "-Inf" ∧
    format_not_finite .nan = str "NaN" ∧
    lib_format_not_finite (.inf true) = str "Inf" := by
  refine ⟨?_, ?_, ?_, ?_, ?_, rfl, rfl, rfl, rfl⟩
  · rw [format_single_value, hn, hp]
    simp only [hf, Bool.false_eq_true, if_false]
  · rw [intword_single, hn, hp]
    simp only [hf, Bool.false_eq_true, if_false]
  · rw [naturalsizeStr, hn, hp]
    simp only [hf, if_true]
  · rw [extract_to_extracted, hp]
    rw [naturalsizeElem]
    simp only [hf, if_true]
  · rw [lib_format_single_value, hn, hp]
    simp only [hf, Bool.false_eq_true, if_false]

/-- Witness for the amended C4 at `s = "infinity"`. -/
theorem non_finite_rendering_witness :
    normalize_special_values (str "infinity") = none ∧
    parse_value (str "infinity") = some (.inf true) ∧
    format_single_value (str "infinity") none = format_not_finite (.inf true) ∧
    lib_format_single_value (str "infinity") none = lib_format_not_finite (.inf true) := by
  have h := non_finite_rendering (str "infinity") none (str "%.1f") false false
    (str "%.1f") (.inf true) (by decide) (by decide) (by decide)
  exact ⟨by decide, by decide, h.1, h.2.2.2.2.1⟩

/-! ## C3: the classification grammar -/

/-- Modelled from the spec's words (§4.1): after comma stripping, a
numeric literal is "an optional leading sign, digits, one decimal point,
and digits" (the decimal point and fraction optional for a plain integer
literal).  This is the spec-side grammar, to be compared with the
source-side parser `rustParse`. -/
def SpecFloatGrammar (s : List Char) : Prop :=
  ∃ sg ip fp : List Char,
    (sg = [] ∨ sg = ['+'] ∨ sg = ['-']) ∧ ip ≠ [] ∧
    (∀ c ∈ ip, isDigit c = true) ∧ (∀ c ∈ fp, isDigit c = true) ∧
    (s = sg ++ ip ++ '.' :: fp ∨ s = sg ++ ip)

theorem specGrammar_chars {s : List Char} (h : SpecFloatGrammar s) :
    ∀ c ∈ s, isDigit c = true ∨ c = '+' ∨ c = '-' ∨ c = '.' := by
  obtain ⟨sg, ip, fp, hsg, _, hip, hfp, hshape⟩ := h
  intro c hc
  have hsgmem : c ∈ sg → c = '+' ∨ c = '-' := by
    intro hm
    rcases hsg with rfl | rfl | rfl
    · simp at hm
    · simp at hm; exact Or.inl hm
    · simp at hm; exact Or.inr hm
  rcases hshape with rfl | rfl
  · rw [List.append_assoc, List.mem_append] at hc
    rcases hc with hc | hc
    · rcases hsgmem hc with h1 | h1
      · exact Or.inr (Or.inl h1)
      · exact Or.inr (Or.inr (Or.inl h1))
    · rw [List.mem_append] at hc
      rcases hc with hc | hc
      · exact Or.inl (hip c hc)
      · rcases List.mem_cons.mp hc with h1 | h1
        · exact Or.inr (Or.inr (Or.inr h1))
        · exact Or.inl (hfp c h1)
  · rw [List.mem_append] at hc
    rcases hc with hc | hc
    · rcases hsgmem hc with h1 | h1
      · exact Or.inr (Or.inl h1)
      · exact Or.inr (Or.inr (Or.inl h1))
    · exact Or.inl (hip c hc)

/-- C3 counterexample: `"1e5"` is outside the spec's sign-digits-point-
digits grammar, yet the classifier does not pass it through unchanged —
it parses the exponent notation and intcomma formats it as `"100,000"`. -/
theorem parse_grammar_cex :
    ¬ SpecFloatGrammar (str "1e5") ∧
    parse_value (str "1e5") = some (.finite (qnat 100000)) ∧
    format_single_value (str "1e5") none = str "100,000" := by
  refine ⟨?_, by decide, by decide⟩
  intro h
  rcases specGrammar_chars h 'e' (by decide) with h1 | h1 | h1 | h1 <;>
    exact absurd h1 (by decide)

theorem parseMantissa_plain {ds : List Char} (hdig : ∀ c ∈ ds, isDigit c = true)
    (hne : ds ≠ []) : parseMantissa ds = some (qnat (digitsVal ds)) := by
  rw [parseMantissa]
  have hnodot : ∀ c ∈ ds, (decide (c ≠ '.')) = true := by
    intro c hc
    simpa using (digit_ne_special (hdig c hc)).2.2.2.1
  rw [dropWhile_all hnodot]
  simp only [List.all_eq_true]
  rw [if_pos ⟨hne, hdig⟩]

theorem parseMantissa_dotted {ip fp : List Char} (hip : ∀ c ∈ ip, isDigit c = true)
    (hfp : ∀ c ∈ fp, isDigit c = true) (hne : ip ++ fp ≠ []) :
    parseMantissa (ip ++ '.' :: fp) =
      some (qadd (qnat (digitsVal ip)) (qdiv (qnat (digitsVal fp)) (qpow10 fp.length))) := by
  rw [parseMantissa]
  have htake : (ip ++ '.' :: fp).takeWhile (fun c => decide (c ≠ '.')) = ip :=
    takeWhile_append_cons
      (fun c hc => by simpa using (digit_ne_special (hip c hc)).2.2.2.1) (by decide)
  have hdrop : (ip ++ '.' :: fp).dropWhile (fun c => decide (c ≠ '.')) = '.' :: fp :=
    dropWhile_append_cons
      (fun c hc => by simpa using (digit_ne_special (hip c hc)).2.2.2.1) (by decide)
  simp only [htake, hdrop]
  simp only [List.all_eq_true]
  rw [if_pos ⟨hne, hip, hfp⟩]

theorem parseNumber_of_no_exp {cs : List Char} (h : ∀ c ∈ cs, c ≠ 'e' ∧ c ≠ 'E') :
    parseNumber cs = parseMantissa cs := by
  rw [parseNumber]
  have hall : ∀ c ∈ cs, (decide (c ≠ 'e' ∧ c ≠ 'E')) = true := by
    intro c hc
    simpa using h c hc
  rw [takeWhile_all hall, dropWhile_all hall]

/-- A sign prefix followed by a digit-headed body that the number grammar
accepts always parses. -/
theorem rustParse_signed_digit {body : List Char} {q : ℚ} {e : Char} {t sg : List Char}
    (hbody : body = e :: t) (hdigE : isDigit e = true)
    (hnum : parseNumber body = some q)
    (hsg : sg = [] ∨ sg = ['+'] ∨ sg = ['-']) :
    (rustParse (sg ++ body)).isSome = true := by
  subst hbody
  have hspec := digit_ne_special hdigE
  have hlowE : lowerChar e = e := lowerChar_of_digit hdigE
  have hinf : ∀ (l2 : List Char), lowerChar e :: l2 ≠ str "inf" := by
    intro l2
    rw [hlowE]
    exact ne_of_head_ne hspec.2.2.2.2.2.2.1
  have hinfy : ∀ (l2 : List Char), lowerChar e :: l2 ≠ str "infinity" := by
    intro l2
    rw [hlowE]
    exact ne_of_head_ne hspec.2.2.2.2.2.2.1
  have hnan : ∀ (l2 : List Char), lowerChar e :: l2 ≠ str "nan" := by
    intro l2
    rw [hlowE]
    exact ne_of_head_ne hspec.2.2.2.2.2.2.2
  rcases hsg with rfl | rfl | rfl
  · rw [List.nil_append, rustParse]
    have hsign : splitSign (e :: t) = (false, e :: t) := by
      rw [splitSign]
      simp only [if_neg hspec.2.2.1, if_neg hspec.2.1]
    rw [hsign]
    simp only [List.map_cons]
    rw [if_neg (by simp [hinf, hinfy]), if_neg (hnan _), hnum]
    rfl
  · rw [List.cons_append, List.nil_append, rustParse]
    have hsign : splitSign ('+' :: e :: t) = (false, e :: t) := by
      rw [splitSign]
      simp
    rw [hsign]
    simp only [List.map_cons]
    rw [if_neg (by simp [hinf, hinfy]), if_neg (hnan _), hnum]
    rfl
  · rw [List.cons_append, List.nil_append, rustParse]
    have hsign : splitSign ('-' :: e :: t) = (true, e :: t) := by
      rw [splitSign]
      simp
    rw [hsign]
    simp only [List.map_cons]
    rw [if_neg (by simp [hinf, hinfy]), if_neg (hnan _), hnum]
    rfl

/-- C3 (amended): comma stripping followed by Rust's float grammar — which
beyond the spec's sign-digits-point-digits form also accepts exponent
suffixes and the `inf`/`infinity`/`nan` spellings — decides
classification: whatever the parser rejects (after the special-token
check) is returned unchanged and no input raises an error, and everything
in the spec's grammar is accepted. -/
theorem parse_grammar_amended (s : List Char) (nd : Option ℕ) :
    (normalize_special_values s = none → parse_value s = none →
      format_single_value s nd = s) ∧
    (SpecFloatGrammar (stripCommas s) → parse_value s ≠ none) := by
  constructor
  · intro hn hp
    rw [format_single_value, hn, hp]
  · intro hg
    obtain ⟨sg, ip, fp, hsg, hipne, hip, hfp, hshape⟩ := hg
    obtain ⟨d, ip', rfl⟩ : ∃ d t, ip = d :: t := by
      cases ip with
      | nil => exact absurd rfl hipne
      | cons d t => exact ⟨d, t, rfl⟩
    have hpv : parse_value s = rustParse (stripCommas s) := rfl
    have hdigd : isDigit d = true := hip d (by simp)
    rcases hshape with hsh | hsh
    · have hnum : parseNumber ((d :: ip') ++ '.' :: fp) =
          some (qadd (qnat (digitsVal (d :: ip')))
            (qdiv (qnat (digitsVal fp)) (qpow10 fp.length))) := by
        rw [parseNumber_of_no_exp (by
          intro c hc
          rw [List.mem_append] at hc
          rcases hc with hc | hc
          · have hs := digit_ne_special (hip c hc)
            exact ⟨hs.2.2.2.2.1, hs.2.2.2.2.2.1⟩
          · rcases List.mem_cons.mp hc with h1 | h1
            · rw [h1]; exact ⟨by decide, by decide⟩
            · have hs := digit_ne_special (hfp c h1)
              exact ⟨hs.2.2.2.2.1, hs.2.2.2.2.2.1⟩)]
        exact parseMantissa_dotted hip hfp (by simp)
      have hsome := rustParse_signed_digit (by rw [List.cons_append]) hdigd hnum hsg
      rw [hpv, hsh, List.append_assoc]
      intro hcontra
      rw [hcontra] at hsome
      exact Bool.noConfusion hsome
    · have hnum : parseNumber (d :: ip') = some (qnat (digitsVal (d :: ip'))) := by
        rw [parseNumber_of_no_exp (by
          intro c hc
          have hs := digit_ne_special (hip c hc)
          exact ⟨hs.2.2.2.2.1, hs.2.2.2.2.2.1⟩)]
        exact parseMantissa_plain hip (by simp)
      have hsome := rustParse_signed_digit rfl hdigd hnum hsg
      rw [hpv, hsh]
      intro hcontra
      rw [hcontra] at hsome
      exact Bool.noConfusion hsome

/-- Witness for the amended C3: `"abc"` is rejected and passed through
unchanged; `"12,3.5"` strips to `"123.5"`, which is in the spec grammar
and parses. -/
theorem parse_grammar_amended_witness :
    (normalize_special_values (str "abc") = none ∧ parse_value (str "abc") = none ∧
      format_single_value (str "abc") none = str "abc") ∧
    (SpecFloatGrammar (stripCommas (str "12,3.5")) ∧ parse_value (str "12,3.5") ≠ none) := by
  constructor
  · exact ⟨by decide, by decide,
      (parse_grammar_amended (str "abc") none).1 (by decide) (by decide)⟩
  · have hg : SpecFloatGrammar (stripCommas (str "12,3.5")) := by
      refine ⟨[], str "123", str "5", Or.inl rfl, by decide, by decide, by decide, Or.inl ?_⟩
      decide
    exact ⟨hg, (parse_grammar_amended (str "12,3.5") none).2 hg⟩

/-! ## Helper lemmas towards C2: character classes of successful parses -/

theorem isWs_cases {c : Char} (h : isWs c = true) :
    c = ' ' ∨ c = '\t' ∨ c = '\n' ∨ c = '\r' := by
  simp only [isWs, Bool.or_eq_true, decide_eq_true_eq] at h
  tauto

theorem lowerChar_of_ws {c : Char} (h : isWs c = true) : lowerChar c = c := by
  rcases isWs_cases h with rfl | rfl | rfl | rfl <;> decide

theorem ws_not_numchar {c : Char} (h : isWs c = true) :
    isDigit c = false ∧ c ≠ '.' ∧ c ≠ '+' ∧ c ≠ '-' ∧ c ≠ 'e' ∧ c ≠ 'E' ∧ c ≠ ',' := by
  rcases isWs_cases h with rfl | rfl | rfl | rfl <;> exact ⟨by decide, by decide, by decide,
    by decide, by decide, by decide, by decide⟩

theorem splitSign_shape (cs : List Char) :
    (splitSign cs).2 = cs ∨
      ∃ c, (c = '+' ∨ c = '-') ∧ cs = c :: (splitSign cs).2 := by
  rcases cs with _ | ⟨c, t⟩
  · exact Or.inl rfl
  · rw [splitSign]
    by_cases hm : c = '-'
    · rw [if_pos hm]
      exact Or.inr ⟨c, Or.inr hm, rfl⟩
    · rw [if_neg hm]
      by_cases hp : c = '+'
      · rw [if_pos hp]
        exact Or.inr ⟨c, Or.inl hp, rfl⟩
      · rw [if_neg hp]
        exact Or.inl rfl

theorem dropWhile_head_false {p : Char → Bool} :
    ∀ (l : List Char) {c : Char} {t : List Char}, l.dropWhile p = c :: t → p c = false := by
  intro l
  induction l with
  | nil => intro c t h; cases h
  | cons a l ih =>
    intro c t h
    rw [List.dropWhile_cons] at h
    by_cases hp : p a = true
    · rw [if_pos hp] at h
      exact ih h
    · rw [if_neg hp] at h
      injection h with h1 h2
      subst h1
      simpa using hp

theorem signed_digits_chars {cs : List Char}
    (hall : ∀ c ∈ (splitSign cs).2, isDigit c = true) :
    ∀ c ∈ cs, isDigit c = true ∨ c = '+' ∨ c = '-' := by
  intro c hc
  rcases splitSign_shape cs with hs | ⟨sgn, hsgn, hs⟩
  · rw [hs] at hall
    exact Or.inl (hall c hc)
  · rw [hs] at hc
    rcases List.mem_cons.mp hc with h1 | h1
    · subst h1
      exact Or.inr hsgn
    · exact Or.inl (hall c h1)

theorem parseMantissa_chars {cs : List Char} {q : ℚ} (h : parseMantissa cs = some q) :
    ∀ c ∈ cs, isDigit c = true ∨ c = '.' := by
  rw [parseMantissa] at h
  rcases hdrop : cs.dropWhile (· ≠ '.') with _ | ⟨c0, fp⟩
  · rw [hdrop] at h
    simp only [] at h
    split_ifs at h with hcond
    intro c hc
    exact Or.inl (List.all_eq_true.mp hcond.2 c hc)
  · rw [hdrop] at h
    simp only [] at h
    split_ifs at h with hcond
    have hsplit : cs = cs.takeWhile (· ≠ '.') ++ c0 :: fp := by
      conv_lhs => rw [← List.takeWhile_append_dropWhile (p := (· ≠ '.')) (l := cs)]
      rw [hdrop]
    have hc0 : c0 = '.' := by
      have := dropWhile_head_false (p := (· ≠ '.')) cs hdrop
      simpa using this
    intro c hc
    rw [hsplit, List.mem_append] at hc
    rcases hc with hc | hc
    · exact Or.inl (List.all_eq_true.mp hcond.2.1 c hc)
    · rcases List.mem_cons.mp hc with h1 | h1
      · rw [h1, hc0]
        exact Or.inr rfl
      · exact Or.inl (List.all_eq_true.mp hcond.2.2 c h1)

theorem parseExpPart_chars {cs : List Char} {z : ℤ} (h : parseExpPart cs = some z) :
    ∀ c ∈ cs, isDigit c = true ∨ c = '+' ∨ c = '-' := by
  rw [parseExpPart] at h
  split_ifs at h with hcond h1 <;>
    exact signed_digits_chars (List.all_eq_true.mp hcond.2)

theorem parseNumber_chars {cs : List Char} {q : ℚ} (h : parseNumber cs = some q) :
    ∀ c ∈ cs, isDigit c = true ∨ c = '.' ∨ c = '+' ∨ c = '-' ∨ c = 'e' ∨ c = 'E' := by
  rw [parseNumber] at h
  rcases hdrop : cs.dropWhile (fun c => c ≠ 'e' ∧ c ≠ 'E') with _ | ⟨c0, ex⟩
  · rw [hdrop] at h
    simp only [] at h
    have hsplit : cs = cs.takeWhile (fun c => c ≠ 'e' ∧ c ≠ 'E') := by
      conv_lhs => rw [← List.takeWhile_append_dropWhile
        (p := fun c => decide (c ≠ 'e' ∧ c ≠ 'E')) (l := cs)]
      rw [hdrop, List.append_nil]
    intro c hc
    rw [hsplit] at hc
    rcases parseMantissa_chars h c hc with h1 | h1
    · exact Or.inl h1
    · exact Or.inr (Or.inl h1)
  · rw [hdrop] at h
    simp only [Option.bind_eq_bind, Option.bind_eq_some] at h
    obtain ⟨mv, hmv, he⟩ := h
    obtain ⟨ez, hez, _⟩ := he
    have hsplit : cs = cs.takeWhile (fun c => c ≠ 'e' ∧ c ≠ 'E') ++ c0 :: ex := by
      conv_lhs => rw [← List.takeWhile_append_dropWhile
        (p := fun c => decide (c ≠ 'e' ∧ c ≠ 'E')) (l := cs)]
      rw [hdrop]
    have hc0 : c0 = 'e' ∨ c0 = 'E' := by
      have := dropWhile_head_false (p := fun c => decide (c ≠ 'e' ∧ c ≠ 'E')) cs hdrop
      simp only [decide_eq_false_iff_not, not_and_or, not_not] at this
      tauto
    intro c hc
    rw [hsplit, List.mem_append] at hc
    rcases hc with hc | hc
    · rcases parseMantissa_chars hmv c hc with h1 | h1
      · exact Or.inl h1
      · exact Or.inr (Or.inl h1)
    · rcases List.mem_cons.mp hc with h1 | h1
      · subst h1
        rcases hc0 with h2 | h2
        · exact Or.inr (Or.inr (Or.inr (Or.inr (Or.inl h2))))
        · exact Or.inr (Or.inr (Or.inr (Or.inr (Or.inr h2))))
      · rcases parseExpPart_chars hez c h1 with h2 | h2 | h2
        · exact Or.inl h2
        · exact Or.inr (Or.inr (Or.inl h2))
        · exact Or.inr (Or.inr (Or.inr (Or.inl h2)))

theorem parseNumber_opt_no_ws {l : List Char} (h : ∃ q, parseNumber l = some q) :
    ∀ c ∈ l, isWs c = false := by
  obtain ⟨q, hpq⟩ := h
  intro c hc
  cases hw : isWs c with
  | false => rfl
  | true =>
    exfalso
    rcases parseNumber_chars hpq c hc with hd | hd | hd | hd | hd | hd
    · rw [(ws_not_numchar hw).1] at hd
      cases hd
    · exact (ws_not_numchar hw).2.1 hd
    · exact (ws_not_numchar hw).2.2.1 hd
    · exact (ws_not_numchar hw).2.2.2.1 hd
    · exact (ws_not_numchar hw).2.2.2.2.1 hd
    · exact (ws_not_numchar hw).2.2.2.2.2.1 hd

theorem rustParse_no_ws {cs : List Char} {v : Fp} (h : rustParse cs = some v) :
    ∀ c ∈ cs, isWs c = false := by
  have key : ∀ c ∈ (splitSign cs).2, isWs c = false := by
    rw [rustParse] at h
    split_ifs at h with h1 h2
    · intro c hc
      cases hw : isWs c with
      | false => rfl
      | true =>
        exfalso
        have hmem : lowerChar c ∈ (splitSign cs).2.map lowerChar := List.mem_map_of_mem _ hc
        rw [lowerChar_of_ws hw] at hmem
        rcases h1 with h1 | h1 <;> rw [h1] at hmem <;>
          rcases isWs_cases hw with rfl | rfl | rfl | rfl <;> exact absurd hmem (by decide)
    · intro c hc
      cases hw : isWs c with
      | false => rfl
      | true =>
        exfalso
        have hmem : lowerChar c ∈ (splitSign cs).2.map lowerChar := List.mem_map_of_mem _ hc
        rw [lowerChar_of_ws hw, h2] at hmem
        rcases isWs_cases hw with rfl | rfl | rfl | rfl <;> exact absurd hmem (by decide)
    · refine parseNumber_opt_no_ws ?_
      rcases hpn : parseNumber (splitSign cs).2 with _ | q
      · rw [hpn] at h
        cases h
      · exact ⟨q, rfl⟩
    · refine parseNumber_opt_no_ws ?_
      rcases hpn : parseNumber (splitSign cs).2 with _ | q
      · rw [hpn] at h
        cases h
      · exact ⟨q, rfl⟩
  intro c hc
  rcases splitSign_shape cs with hs | ⟨sgn, hsgn, hs⟩
  · rw [hs] at key
    exact key c hc
  · rw [hs] at hc
    rcases List.mem_cons.mp hc with h1 | h1
    · subst h1
      rcases hsgn with rfl | rfl <;> rfl
    · exact key c h1

theorem dropWhile_of_all_false {p : Char → Bool} {l : List Char}
    (h : ∀ c ∈ l, p c = false) : l.dropWhile p = l := by
  cases l with
  | nil => rfl
  | cons a t => simp [List.dropWhile_cons, h a (List.mem_cons_self a t)]

theorem trimWs_of_ws_free {l : List Char} (h : ∀ c ∈ l, isWs c = false) : trimWs l = l := by
  have h2 : ∀ c ∈ l.reverse, isWs c = false := fun c hc => h c (List.mem_reverse.mp hc)
  rw [trimWs, dropWhile_of_all_false h, dropWhile_of_all_false h2, List.reverse_reverse]

theorem trimWs_decomp (s : List Char) :
    ∃ pre suf, s = pre ++ trimWs s ++ suf ∧ (∀ c ∈ pre, isWs c = true) ∧
      (∀ c ∈ suf, isWs c = true) := by
  refine ⟨s.takeWhile isWs, ((s.dropWhile isWs).reverse.takeWhile isWs).reverse, ?_, ?_, ?_⟩
  · have hd : s.dropWhile isWs = ((s.dropWhile isWs).reverse.dropWhile isWs).reverse
        ++ ((s.dropWhile isWs).reverse.takeWhile isWs).reverse := by
      conv_lhs => rw [← List.reverse_reverse (s.dropWhile isWs)]
      conv_lhs => rw [← List.takeWhile_append_dropWhile (p := isWs)
        (l := (s.dropWhile isWs).reverse)]
      rw [List.reverse_append]
    rw [trimWs, List.append_assoc, ← hd]
    exact (List.takeWhile_append_dropWhile (p := isWs) (l := s)).symm
  · intro c hc
    exact List.mem_takeWhile_imp hc
  · intro c hc
    exact List.mem_takeWhile_imp (List.mem_reverse.mp hc)

theorem parse_value_token_shape {s : List Char} {v : Fp} {tok : List Char}
    (hmap : (trimWs s).map lowerChar = tok)
    (hcomma : (',' : Char) ∉ tok)
    (hp : parse_value s = some v) :
    s.map lowerChar = tok ∧ rustParse s = some v := by
  obtain ⟨pre, suf, hs, hpre, hsuf⟩ := trimWs_decomp s
  have hnc : ∀ c ∈ s, c ≠ ',' := by
    intro c hc hceq
    subst hceq
    rw [hs, List.mem_append, List.mem_append] at hc
    rcases hc with (hc | hc) | hc
    · exact (ws_not_numchar (hpre _ hc)).2.2.2.2.2.2 rfl
    · have hmem : lowerChar ',' ∈ (trimWs s).map lowerChar := List.mem_map_of_mem _ hc
      have hlc : lowerChar ',' = ',' := by decide
      rw [hlc, hmap] at hmem
      exact hcomma hmem
    · exact (ws_not_numchar (hsuf _ hc)).2.2.2.2.2.2 rfl
  have hstrip : stripCommas s = s := by
    rw [stripCommas]
    exact filter_all (fun c hc => decide_eq_true (hnc c hc))
  have hrp : rustParse s = some v := by
    rw [parse_value, hstrip] at hp
    exact hp
  have hwsfree := rustParse_no_ws hrp
  have hpre0 : pre = [] := by
    cases hpc : pre with
    | nil => rfl
    | cons a t =>
      exfalso
      have ha : a ∈ s := by
        rw [hs, hpc]
        simp
      have := hwsfree a ha
      rw [hpre a (by rw [hpc]; exact List.mem_cons_self a t)] at this
      cases this
  have hsuf0 : suf = [] := by
    cases hsc : suf with
    | nil => rfl
    | cons a t =>
      exfalso
      have ha : a ∈ s := by
        rw [hs, hsc]
        simp
      have := hwsfree a ha
      rw [hsuf a (by rw [hsc]; exact List.mem_cons_self a t)] at this
      cases this
  have hseq : s = trimWs s := by
    conv_lhs => rw [hs]
    rw [hpre0, hsuf0]
    simp
  constructor
  · rw [hseq]
    exact hmap
  · exact hrp

theorem rustParse_lower_inf {s : List Char} {v : Fp} (h : s.map lowerChar = str "inf")
    (hp : rustParse s = some v) : v = .inf true := by
  rcases s with _ | ⟨c0, t0⟩
  · exact absurd h (by decide)
  · have hfull := h
    have hstr : str "inf" = 'i' :: 'n' :: 'f' :: [] := by decide
    rw [hstr, List.map_cons] at h
    injection h with hA hB
    have hc0m : c0 ≠ '-' := by
      intro he
      subst he
      exact absurd hA (by decide)
    have hc0p : c0 ≠ '+' := by
      intro he
      subst he
      exact absurd hA (by decide)
    have hsp : splitSign (c0 :: t0) = (false, c0 :: t0) := by
      rw [splitSign, if_neg hc0m, if_neg hc0p]
    have hs1 : (splitSign (c0 :: t0)).1 = false := by rw [hsp]
    have hs2 : (splitSign (c0 :: t0)).2 = c0 :: t0 := by rw [hsp]
    rw [rustParse] at hp
    rw [hs1, hs2, if_pos (Or.inl hfull)] at hp
    exact (Option.some.inj hp).symm

theorem rustParse_lower_pinf {s : List Char} {v : Fp} (h : s.map lowerChar = str "+inf")
    (hp : rustParse s = some v) : v = .inf true := by
  rcases s with _ | ⟨c0, t0⟩
  · exact absurd h (by decide)
  · have hfull := h
    have hstr : str "+inf" = '+' :: 'i' :: 'n' :: 'f' :: [] := by decide
    rw [hstr, List.map_cons] at h
    injection h with hA hB
    by_cases hc0 : c0 = '+'
    · subst hc0
      have hsp : splitSign ('+' :: t0) = (false, t0) := by
        rw [splitSign, if_neg (by decide), if_pos rfl]
      have hs1 : (splitSign ('+' :: t0)).1 = false := by rw [hsp]
      have hs2 : (splitSign ('+' :: t0)).2 = t0 := by rw [hsp]
      have hB' : t0.map lowerChar = str "inf" := by
        rw [hB]
        decide
      rw [rustParse] at hp
      rw [hs1, hs2, if_pos (Or.inl hB')] at hp
      exact (Option.some.inj hp).symm
    · exfalso
      have hc0m : c0 ≠ '-' := by
        intro he
        subst he
        exact absurd hA (by decide)
      have hsp : splitSign (c0 :: t0) = (false, c0 :: t0) := by
        rw [splitSign, if_neg hc0m, if_neg hc0]
      have hs1 : (splitSign (c0 :: t0)).1 = false := by rw [hsp]
      have hs2 : (splitSign (c0 :: t0)).2 = c0 :: t0 := by rw [hsp]
      rw [rustParse] at hp
      rw [hs1, hs2, hfull, if_neg (by decide), if_neg (by decide)] at hp
      rcases hq : parseNumber (c0 :: t0) with _ | q
      · rw [hq] at hp
        cases hp
      · rcases parseNumber_chars hq c0 (List.mem_cons_self _ _) with hd | hd | hd | hd | hd | hd
        · rw [lowerChar_of_digit hd] at hA
          rw [hA] at hd
          exact absurd hd (by decide)
        · subst hd
          exact absurd hA (by decide)
        · exact hc0 hd
        · exact hc0m hd
        · subst hd
          exact absurd hA (by decide)
        · subst hd
          exact absurd hA (by decide)

theorem rustParse_lower_minf {s : List Char} {v : Fp} (h : s.map lowerChar = str "-inf")
    (hp : rustParse s = some v) : v = .inf false := by
  rcases s with _ | ⟨c0, t0⟩
  · exact absurd h (by decide)
  · have hfull := h
    have hstr : str "-inf" = '-' :: 'i' :: 'n' :: 'f' :: [] := by decide
    rw [hstr, List.map_cons] at h
    injection h with hA hB
    by_cases hc0 : c0 = '-'
    · subst hc0
      have hsp : splitSign ('-' :: t0) = (true, t0) := by
        rw [splitSign, if_pos rfl]
      have hs1 : (splitSign ('-' :: t0)).1 = true := by rw [hsp]
      have hs2 : (splitSign ('-' :: t0)).2 = t0 := by rw [hsp]
      have hB' : t0.map lowerChar = str "inf" := by
        rw [hB]
        decide
      rw [rustParse] at hp
      rw [hs1, hs2, if_pos (Or.inl hB')] at hp
      exact (Option.some.inj hp).symm
    · exfalso
      have hc0p : c0 ≠ '+' := by
        intro he
        subst he
        exact absurd hA (by decide)
      have hsp : splitSign (c0 :: t0) = (false, c0 :: t0) := by
        rw [splitSign, if_neg hc0, if_neg hc0p]
      have hs1 : (splitSign (c0 :: t0)).1 = false := by rw [hsp]
      have hs2 : (splitSign (c0 :: t0)).2 = c0 :: t0 := by rw [hsp]
      rw [rustParse] at hp
      rw [hs1, hs2, hfull, if_neg (by decide), if_neg (by decide)] at hp
      rcases hq : parseNumber (c0 :: t0) with _ | q
      · rw [hq] at hp
        cases hp
      · rcases parseNumber_chars hq c0 (List.mem_cons_self _ _) with hd | hd | hd | hd | hd | hd
        · rw [lowerChar_of_digit hd] at hA
          rw [hA] at hd
          exact absurd hd (by decide)
        · subst hd
          exact absurd hA (by decide)
        · subst hd
          exact absurd hA (by decide)
        · exact hc0 hd
        · subst hd
          exact absurd hA (by decide)
        · subst hd
          exact absurd hA (by decide)

theorem rustParse_lower_nan {s : List Char} {v : Fp} (h : s.map lowerChar = str "nan")
    (hp : rustParse s = some v) : v = .nan := by
  rcases s with _ | ⟨c0, t0⟩
  · exact absurd h (by decide)
  · have hfull := h
    have hstr : str "nan" = 'n' :: 'a' :: 'n' :: [] := by decide
    rw [hstr, List.map_cons] at h
    injection h with hA hB
    have hc0m : c0 ≠ '-' := by
      intro he
      subst he
      exact absurd hA (by decide)
    have hc0p : c0 ≠ '+' := by
      intro he
      subst he
      exact absurd hA (by decide)
    have hsp : splitSign (c0 :: t0) = (false, c0 :: t0) := by
      rw [splitSign, if_neg hc0m, if_neg hc0p]
    have hs1 : (splitSign (c0 :: t0)).1 = false := by rw [hsp]
    have hs2 : (splitSign (c0 :: t0)).2 = c0 :: t0 := by rw [hsp]
    rw [rustParse] at hp
    rw [hs1, hs2, hfull, if_neg (by decide), if_pos rfl] at hp
    exact (Option.some.inj hp).symm

theorem normalize_parse_special {s t : List Char} {v : Fp}
    (hn : normalize_special_values s = some t) (hp : parse_value s = some v) :
    (v = .inf true ∧ t = str "+Inf") ∨ (v = .inf false ∧ t = str "-Inf") ∨
      (v = .nan ∧ t = str "NaN") := by
  rw [normalize_special_values] at hn
  split_ifs at hn with h1 h2 h3
  · have ht : t = str "+Inf" := (Option.some.inj hn).symm
    rcases h1 with h1 | h1
    · obtain ⟨hlow, hrp⟩ := parse_value_token_shape h1 (by decide) hp
      exact Or.inl ⟨rustParse_lower_inf hlow hrp, ht⟩
    · obtain ⟨hlow, hrp⟩ := parse_value_token_shape h1 (by decide) hp
      exact Or.inl ⟨rustParse_lower_pinf hlow hrp, ht⟩
  · have ht : t = str "-Inf" := (Option.some.inj hn).symm
    obtain ⟨hlow, hrp⟩ := parse_value_token_shape h2 (by decide) hp
    exact Or.inr (Or.inl ⟨rustParse_lower_minf hlow hrp, ht⟩)
  · have ht : t = str "NaN" := (Option.some.inj hn).symm
    obtain ⟨hlow, hrp⟩ := parse_value_token_shape h3 (by decide) hp
    exact Or.inr (Or.inr ⟨rustParse_lower_nan hlow hrp, ht⟩)

theorem extract_some {s : List Char} {v : Fp} (hp : parse_value s = some v) :
    extract_to_extracted s = .numeric v := by
  rw [extract_to_extracted, hp]

theorem extract_none {s : List Char} (hp : parse_value s = none) :
    extract_to_extracted s = .raw s := by
  rw [extract_to_extracted, hp]

theorem nsStr_norm {s t : List Char} {b g : Bool} {f : List Char}
    (hn : normalize_special_values s = some t) : naturalsizeStr s b g f = t := by
  rw [naturalsizeStr, hn]

theorem nsStr_nonorm_some {s : List Char} {v : Fp} {b g : Bool} {f : List Char}
    (hn : normalize_special_values s = none) (hp : parse_value s = some v) :
    naturalsizeStr s b g f =
      (if v.isFinite = false then format_not_finite v
       else format_numeric_value v.qval b g f) := by
  rw [naturalsizeStr, hn, hp]

theorem nsStr_nonorm_none {s : List Char} {b g : Bool} {f : List Char}
    (hn : normalize_special_values s = none) (hp : parse_value s = none) :
    naturalsizeStr s b g f = s := by
  rw [naturalsizeStr, hn, hp]

theorem naturalsizeElem_eq_str (s : List Char) (b g : Bool) (f : List Char) :
    naturalsizeElem (extract_to_extracted s) b g f = naturalsizeStr s b g f := by
  rcases hp : parse_value s with _ | v
  · rw [extract_none hp, naturalsizeElem]
    rcases hn : normalize_special_values s with _ | t
    · rw [nsStr_nonorm_none hn hp]
      rfl
    · rw [nsStr_norm hn]
      rfl
  · rw [extract_some hp, naturalsizeElem]
    rcases hn : normalize_special_values s with _ | t
    · rw [nsStr_nonorm_some hn hp]
    · rw [nsStr_norm hn]
      rcases normalize_parse_special hn hp with ⟨hv, ht⟩ | ⟨hv, ht⟩ | ⟨hv, ht⟩ <;>
        subst hv <;> subst ht <;> rfl

theorem map_getElem_opt (f : List Char → List Char) :
    ∀ (l : List (List Char)) (i : ℕ), (l.map f)[i]? = (l[i]?).map f := by
  intro l
  induction l with
  | nil => intro i; cases i <;> rfl
  | cons a t ih =>
    intro i
    cases i with
    | zero => simp
    | succ j => simp [ih j]

/-- **C2**: each of `intcomma`, `intword` and `naturalsize` maps a list to a
list and a tuple to a tuple of the same length, whose entry at every
position `i` is exactly the scalar formatting of the input entry at
position `i` (the eager collection into a vector keeps worker order, so the
result is the order-preserving elementwise image; for `naturalsize` the
batch element path agrees with the scalar string path). -/
theorem batch_shape_preservation (xs : List (List Char)) (nd : Option ℕ)
    (fmt : List Char) (b g : Bool) (fs : List Char) :
    (intcomma (.list xs) nd = .list (xs.map (fun s => format_single_value s nd))
      ∧ intcomma (.tuple xs) nd = .tuple (xs.map (fun s => format_single_value s nd))
      ∧ (∀ s, intcomma (.scalar s) nd = .scalar (format_single_value s nd))
      ∧ (xs.map (fun s => format_single_value s nd)).length = xs.length
      ∧ ∀ i : ℕ, (xs.map (fun s => format_single_value s nd))[i]?
          = (xs[i]?).map (fun s => format_single_value s nd))
    ∧ (intword (.list xs) fmt = .list (xs.map (fun s => intword_single s fmt))
      ∧ intword (.tuple xs) fmt = .tuple (xs.map (fun s => intword_single s fmt))
      ∧ (∀ s, intword (.scalar s) fmt = .scalar (intword_single s fmt))
      ∧ (xs.map (fun s => intword_single s fmt)).length = xs.length
      ∧ ∀ i : ℕ, (xs.map (fun s => intword_single s fmt))[i]?
          = (xs[i]?).map (fun s => intword_single s fmt))
    ∧ (naturalsize (.list xs) b g fs = .list (xs.map (fun s => naturalsizeStr s b g fs))
      ∧ naturalsize (.tuple xs) b g fs = .tuple (xs.map (fun s => naturalsizeStr s b g fs))
      ∧ (∀ s, naturalsize (.scalar s) b g fs = .scalar (naturalsizeStr s b g fs))
      ∧ (xs.map (fun s => naturalsizeStr s b g fs)).length = xs.length
      ∧ ∀ i : ℕ, (xs.map (fun s => naturalsizeStr s b g fs))[i]?
          = (xs[i]?).map (fun s => naturalsizeStr s b g fs)) := by
  have hmapns : ∀ (ys : List (List Char)),
      ys.map (fun s => naturalsizeElem (extract_to_extracted s) b g fs)
        = ys.map (fun s => naturalsizeStr s b g fs) :=
    fun ys => List.map_congr_left (fun s _ => naturalsizeElem_eq_str s b g fs)
  refine ⟨⟨rfl, rfl, fun s => rfl, List.length_map _ _,
      map_getElem_opt (fun s => format_single_value s nd) xs⟩,
    ⟨rfl, rfl, fun s => rfl, List.length_map _ _,
      map_getElem_opt (fun s => intword_single s fmt) xs⟩,
    ⟨?_, ?_, fun s => rfl, List.length_map _ _,
      map_getElem_opt (fun s => naturalsizeStr s b g fs) xs⟩⟩
  · rw [naturalsize, hmapns]
  · rw [naturalsize, hmapns]
